import Mathlib

set_option synthInstance.maxSize 512

/-!
Verification of the rampr bridge pipeline (`rampr/bridge/io_bridge.py` and
`rampr/bridge/missing_bridge.py`) against its natural-language specification.

The embedding is shallow: pandas data frames become Lean lists of structures,
float columns become rationals extended with the IEEE special values
(`PVal.pinf`, `PVal.ninf`, `PVal.nan`) so that `x / 0`, `fillna(0)` and
`sum()` behave exactly as in pandas/numpy, and the optional columns of the
source ("year", "sector_name") become explicit presence flags carried by the
table.  Table sorting (pandas `groupby(sort=True)` and
`sort_values(kind="stable")`) is modelled by the stable, structurally
recursive `List.insertionSort`.
-/

/-- Model of a pandas float cell: a finite rational or one of the IEEE
special values produced by division by zero (`inf`, `-inf`, `nan`). -/
inductive PVal where
  | fin (q : ℚ)
  | pinf
  | ninf
  | nan
deriving DecidableEq

/-- IEEE addition on `PVal`, as numpy performs it (`inf + -inf = nan`,
`nan` absorbs). -/
def PVal.add : PVal → PVal → PVal
  | .nan, _ => .nan
  | _, .nan => .nan
  | .fin a, .fin b => .fin (a + b)
  | .fin _, .pinf => .pinf
  | .pinf, .fin _ => .pinf
  | .fin _, .ninf => .ninf
  | .ninf, .fin _ => .ninf
  | .pinf, .pinf => .pinf
  | .ninf, .ninf => .ninf
  | .pinf, .ninf => .nan
  | .ninf, .pinf => .nan

/-- Scalar multiplication `q * v` as numpy performs it
(`0 * inf = nan`, sign rules for infinities). -/
def PVal.mulQ (q : ℚ) : PVal → PVal
  | .fin b => .fin (q * b)
  | .pinf => if 0 < q then .pinf else if q < 0 then .ninf else .nan
  | .ninf => if 0 < q then .ninf else if q < 0 then .pinf else .nan
  | .nan => .nan

/-- Float division `b / t` as numpy performs it: `0/0 = nan`,
`b/0 = ±inf` for `b ≠ 0`, ordinary division otherwise. -/
def PVal.div (b t : ℚ) : PVal :=
  if t = 0 then
    (if b = 0 then .nan else if 0 < b then .pinf else .ninf)
  else .fin (b / t)

/-- pandas `Series.fillna(0)`: replaces `nan` (but not infinities) by `0`. -/
def PVal.fillna0 : PVal → PVal
  | .nan => .fin 0
  | v => v

/-- `v` is the float `nan`. -/
def PVal.isNan : PVal → Bool
  | .nan => true
  | _ => false

/-- pandas `Series.sum()` (`skipna=True` default): drop the `nan` entries,
then add up the rest with IEEE addition; the empty sum is `0`. -/
def PVal.psum (l : List PVal) : PVal :=
  (l.filter (fun v => !v.isNan)).foldr PVal.add (PVal.fin 0)

theorem PVal.psum_map_fin (l : List α) (f : α → ℚ) :
    PVal.psum (l.map fun x => PVal.fin (f x)) = PVal.fin ((l.map f).sum) := by
  induction l with
  | nil => rfl
  | cons a t ih =>
    simp only [List.map_cons, List.sum_cons]
    unfold PVal.psum at ih ⊢
    rw [List.filter_cons_of_pos (by simp [PVal.isNan]), List.foldr_cons, ih]
    rfl

/-- Python left trim: drop leading whitespace. -/
def trimL (l : List Char) : List Char :=
  l.dropWhile Char.isWhitespace

/-- Python right trim: drop trailing whitespace. -/
def trimR (l : List Char) : List Char :=
  (l.reverse.dropWhile Char.isWhitespace).reverse

/-- Python `str.strip()` on the character list. -/
def stripChars (l : List Char) : List Char :=
  trimR (trimL l)

/-- Python `str.strip()`. -/
def pyStrip (s : String) : String :=
  ⟨stripChars s.data⟩

theorem dropWhile_dropWhile (p : α → Bool) (l : List α) :
    (l.dropWhile p).dropWhile p = l.dropWhile p := by
  induction l with
  | nil => rfl
  | cons a t ih =>
    by_cases h : p a
    · simp [List.dropWhile_cons, h, ih]
    · simp [List.dropWhile_cons, h]

theorem dropWhile_suffix_ex (p : α → Bool) (l : List α) :
    ∃ u, u ++ l.dropWhile p = l := by
  induction l with
  | nil => exact ⟨[], rfl⟩
  | cons a t ih =>
    by_cases h : p a
    · obtain ⟨u, hu⟩ := ih
      exact ⟨a :: u, by simp [List.dropWhile_cons, h, hu]⟩
    · exact ⟨[], by simp [List.dropWhile_cons, h]⟩

theorem trimR_prefix_ex (l : List α) (p : α → Bool) :
    ∃ u, (l.reverse.dropWhile p).reverse ++ u = l := by
  obtain ⟨v, hv⟩ := dropWhile_suffix_ex p l.reverse
  refine ⟨v.reverse, ?_⟩
  have := congrArg List.reverse hv
  simpa using this

theorem trimL_trimL (l : List Char) : trimL (trimL l) = trimL l :=
  dropWhile_dropWhile _ l

theorem trimR_trimR (l : List Char) : trimR (trimR l) = trimR l := by
  unfold trimR
  rw [List.reverse_reverse, dropWhile_dropWhile]

theorem trimL_trimR_of_trimL_eq (s : List Char) (hs : trimL s = s) :
    trimL (trimR s) = trimR s := by
  obtain ⟨u, hu⟩ := trimR_prefix_ex s Char.isWhitespace
  cases h : trimR s with
  | nil => rfl
  | cons a t =>
    have ha : ¬ Char.isWhitespace a := by
      intro hws
      have hs' : s = a :: (t ++ u) := by
        rw [← hu]
        unfold trimR at h
        rw [h]
        simp
      have hlen : (trimL s).length ≤ (t ++ u).length := by
        rw [hs']
        unfold trimL
        rw [List.dropWhile_cons, if_pos hws]
        exact (List.dropWhile_sublist _).length_le
      rw [hs, hs'] at hlen
      simp only [List.length_cons] at hlen
      omega
    unfold trimL
    rw [List.dropWhile_cons, if_neg ha]

theorem stripChars_idem (l : List Char) : stripChars (stripChars l) = stripChars l := by
  unfold stripChars
  rw [trimL_trimR_of_trimL_eq (trimL l) (trimL_trimL l), trimR_trimR]

theorem pyStrip_idem (s : String) : pyStrip (pyStrip s) = pyStrip s := by
  unfold pyStrip
  simp [stripChars_idem]

/-- Python `str.upper()` (character-wise). -/
def pyUpper (s : String) : String :=
  ⟨s.data.map Char.toUpper⟩

/-- Python `str.zfill(5)` for the digit strings used as area codes. -/
def zfill5 (s : String) : String :=
  ⟨List.replicate (5 - s.data.length) '0' ++ s.data⟩

/-- Python slicing `s[:L]`. -/
def strTake (s : String) (L : ℕ) : String :=
  ⟨s.data.take L⟩

/-- Stable sort of a list by a key drawn from a linear order
(pandas sorts group keys ascending; `sort_values(kind="stable")`). -/
def sortByKey {κ : Type} [LinearOrder κ] (kf : α → κ) (l : List α) : List α :=
  @List.insertionSort α (fun x y => kf x ≤ kf y)
    (fun x y => inferInstanceAs (Decidable (kf x ≤ kf y))) l

/-- A string as its list of code points, for lexicographic comparison
(Python compares strings code point by code point, and pandas sorts
string keys Python-style). -/
def encStr (s : String) : List Int :=
  s.data.map (fun c => (c.toNat : Int))


/-- `drop_duplicates(keep="first")` on a whole list: keep the first
occurrence of each element, preserving order. -/
def dedupFirst [DecidableEq α] : List α → List α :=
  go []
where
  go (seen : List α) : List α → List α
    | [] => []
    | a :: t => if a ∈ seen then go seen t else a :: go (a :: seen) t

theorem dedupFirst.go_subset [DecidableEq α] (seen : List α) (l : List α) :
    ∀ x ∈ dedupFirst.go seen l, x ∈ l := by
  induction l generalizing seen with
  | nil => simp [go]
  | cons a t ih =>
    intro x hx
    simp only [go] at hx
    split at hx
    · exact List.mem_cons_of_mem _ (ih seen x hx)
    · rcases List.mem_cons.mp hx with h | h
      · exact h ▸ List.mem_cons_self _ _
      · exact List.mem_cons_of_mem _ (ih _ x h)

theorem dedupFirst.go_mem [DecidableEq α] (seen : List α) (l : List α) :
    ∀ x ∈ l, x ∉ seen → x ∈ dedupFirst.go seen l := by
  induction l generalizing seen with
  | nil => simp
  | cons a t ih =>
    intro x hx hns
    simp only [go]
    rcases List.mem_cons.mp hx with h | h
    · subst h
      split
      · exact absurd (by assumption) hns
      · exact List.mem_cons_self _ _
    · split
      · exact ih seen x h hns
      · by_cases hxa : x = a
        · simp [hxa]
        · exact List.mem_cons_of_mem _ (ih _ x h (by simp [hns, hxa]))

theorem mem_dedupFirst [DecidableEq α] (l : List α) (x : α) :
    x ∈ dedupFirst l ↔ x ∈ l := by
  constructor
  · exact dedupFirst.go_subset [] l x
  · intro h
    exact dedupFirst.go_mem [] l x h (by simp)

theorem dedupFirst.go_nodup_and_disjoint [DecidableEq α] (l : List α) :
    ∀ seen : List α, (dedupFirst.go seen l).Nodup ∧ ∀ x ∈ dedupFirst.go seen l, x ∉ seen := by
  induction l with
  | nil => intro seen; simp [go]
  | cons a t ih =>
    intro seen
    simp only [go]
    split
    · exact ih seen
    · obtain ⟨hnd, hdisj⟩ := ih (a :: seen)
      refine ⟨List.nodup_cons.mpr ⟨fun hmem => (hdisj a hmem) (by simp), hnd⟩, ?_⟩
      intro x hx
      rcases List.mem_cons.mp hx with h | h
      · subst h; assumption
      · intro hseen
        exact (hdisj x h) (List.mem_cons_of_mem _ hseen)

theorem nodup_dedupFirst [DecidableEq α] (l : List α) : (dedupFirst l).Nodup :=
  (dedupFirst.go_nodup_and_disjoint l []).1

/-- `mapWithIndex f n l` applies `f` to each element together with its
absolute index, starting at `n`. -/
def mapWithIndex (f : ℕ → α → α) : ℕ → List α → List α
  | _, [] => []
  | n, a :: t => f n a :: mapWithIndex f (n + 1) t

theorem length_mapWithIndex (f : ℕ → α → α) (n : ℕ) (l : List α) :
    (mapWithIndex f n l).length = l.length := by
  induction l generalizing n with
  | nil => rfl
  | cons a t ih => simp [mapWithIndex, ih]

/-! ### io_bridge.py — data model

The three CSV inputs of `build_crosswalk`.  Each table carries the list of
column names of the underlying CSV (used by the schema validation of
`_read_qcew_crosswalk_all_and_409`) together with typed rows for the columns
the pipeline reads.  A raw numeric cell is `Option ℚ` (`none` = NaN or an
unparsable value, i.e. what `pd.to_numeric(..., errors="coerce")` turns into
NA); the nullable integer sector codes are `Option ℤ`.  The optional
crosswalk label columns (`qcew_label`, `io_label`) are carried as
`Option String` cells together with presence flags read off `cols`; when
present they are folded into `bridge_cols`, so they take part in the
bridge group-by (whose default `dropna=True` silently drops rows with a
NaN label key) and in the subsequent four-key
`drop_duplicates(keep="first")`. -/

/-- Errors raised by the bridge stages: `keyError`/`keyErrorList` are raw
pandas column-lookup errors (`df["c"]`, `df[["a","b"]]`), `schemaMissing`
is the `ValueError("<table> missing columns: [...]")` raised by
`_read_qcew_crosswalk_all_and_409`. -/
inductive PdErr where
  | keyError (c : String)
  | keyErrorList (cs : List String)
  | schemaMissing (tbl : String) (cols : List String)
deriving DecidableEq

structure AllRow where
  area_fips : String
  naics_code : Option Int
  tap_estabs_count : Option ℚ
  tap_wages_est_3 : Option ℚ
  tap_emplvl_est_3 : Option ℚ
  year : Int
deriving DecidableEq

structure QcewAllTable where
  cols : List String
  rows : List AllRow
deriving DecidableEq

structure R409Row where
  area_fips : String
  sector_code : String
  tap_estabs_count : Option ℚ
  tap_wages_est_3 : Option ℚ
  tap_emplvl_est_3 : Option ℚ
  year : Int
  sector_name : Option String
deriving DecidableEq

structure Qcew409Table where
  cols : List String
  rows : List R409Row
deriving DecidableEq

/-- A crosswalk row.  The label cells are meaningful only when the
corresponding optional column is present in the table (`XwTable.cols`);
`none` is a NaN cell. -/
structure XwRow where
  qcew_sector : Option Int
  io_sector : Option String
  qcew_label : Option String
  io_label : Option String
deriving DecidableEq

structure XwTable where
  cols : List String
  rows : List XwRow
deriving DecidableEq

/-- Presence of the optional `io_label` crosswalk column. -/
def XwTable.hasIoLabel (x : XwTable) : Bool := decide ("io_label" ∈ x.cols)

/-- Presence of the optional `qcew_label` crosswalk column. -/
def XwTable.hasQcewLabel (x : XwTable) : Bool := decide ("qcew_label" ∈ x.cols)

def requiredAll : List String :=
  ["area_fips", "naics_code", "tap_estabs_count", "tap_wages_est_3", "tap_emplvl_est_3"]

def required409 : List String :=
  ["area_fips", "sector_code", "tap_estabs_count", "tap_wages_est_3", "tap_emplvl_est_3"]

def requiredXw : List String :=
  ["qcew_sector", "io_sector"]

/-- Python `sorted(...)` on a set of column names: lexicographic by code
points. -/
def sortStr (l : List String) : List String :=
  sortByKey encStr l

/-- The columns of `required` absent from `cols`, sorted — the
`sorted(set(required) - set(df.columns))` of the source. -/
def missingCols (required cols : List String) : List String :=
  sortStr (required.filter (fun c => ¬ (c ∈ cols)))

/-- `_read_qcew_crosswalk_all_and_409`: validates the three inputs in order
(QCEW ALL, then QCEW 409, then Crosswalk), raising a schema error naming the
sorted missing columns of the first deficient table. -/
def read_qcew_crosswalk_all_and_409 (qcew_all : QcewAllTable) (qcew_409 : Qcew409Table)
    (xw : XwTable) : Except PdErr (QcewAllTable × Qcew409Table × XwTable) :=
  if missingCols requiredAll qcew_all.cols ≠ [] then
    .error (.schemaMissing "QCEW ALL" (missingCols requiredAll qcew_all.cols))
  else if missingCols required409 qcew_409.cols ≠ [] then
    .error (.schemaMissing "QCEW 409" (missingCols required409 qcew_409.cols))
  else if missingCols requiredXw xw.cols ≠ [] then
    .error (.schemaMissing "Crosswalk" (missingCols requiredXw xw.cols))
  else
    .ok (qcew_all, qcew_409, xw)

/-- The `weight_on` argument of `build_crosswalk`: one of the numeric value
columns of QCEW ALL, or a numeric constant broadcast to every row. -/
inductive WeightBasis where
  | wEstabs
  | wWages
  | wEmplvl
  | wConst (q : ℚ)
deriving DecidableEq

/-- A cleaned QCEW ALL row (area zero-padded, year defaulted to -1 when the
table has no "year" column, numeric columns coerced with NaN→0, and the
`_weight_base` column). -/
structure CRow where
  area_fips : String
  qcew_sector : Option Int
  vEstabs : ℚ
  vWages : ℚ
  vEmplvl : ℚ
  base : ℚ
  year : Int
deriving DecidableEq

def cleanAllRow (hasYear : Bool) (basis : WeightBasis) (r : AllRow) : CRow :=
  let vE : ℚ := (r.tap_estabs_count).getD 0
  let vW : ℚ := (r.tap_wages_est_3).getD 0
  let vL : ℚ := (r.tap_emplvl_est_3).getD 0
  { area_fips := zfill5 r.area_fips
    qcew_sector := r.naics_code
    vEstabs := vE
    vWages := vW
    vEmplvl := vL
    base := match basis with
      | .wEstabs => vE
      | .wWages => vW
      | .wEmplvl => vL
      | .wConst q => q
    year := if hasYear then r.year else -1 }

/-- A cleaned crosswalk row (the `dropna` is on the two key columns only;
label cells ride along untouched). -/
structure XwClean where
  qcew : Int
  io : String
  qcew_label : Option String
  io_label : Option String
deriving DecidableEq

/-- Crosswalk cleaning: drop rows whose key fields are null or unparsable,
coerce `qcew_sector` to an integer and trim `io_sector`. -/
def cleanXw (rows : List XwRow) : List XwClean :=
  rows.filterMap (fun r =>
    match r.qcew_sector, r.io_sector with
    | some q, some s => some ⟨q, pyStrip s, r.qcew_label, r.io_label⟩
    | _, _ => none)

/-- One row of `merged = df_qcew_all.merge(df_crosswalk, on="qcew_sector",
how="left").dropna(subset=["io_sector"])`. -/
structure MRow where
  area_fips : String
  year : Int
  qcew_sector : Int
  io_sector : String
  vEstabs : ℚ
  vWages : ℚ
  vEmplvl : ℚ
  base : ℚ
  qcew_label : Option String
  io_label : Option String
deriving DecidableEq

def mergeAllXw (cleaned : List CRow) (xwc : List XwClean) : List MRow :=
  cleaned.flatMap (fun r =>
    match r.qcew_sector with
    | none => []
    | some q =>
      (xwc.filter (fun e => e.qcew = q)).map (fun e =>
        { area_fips := r.area_fips, year := r.year, qcew_sector := q, io_sector := e.io,
          vEstabs := r.vEstabs, vWages := r.vWages, vEmplvl := r.vEmplvl, base := r.base,
          qcew_label := e.qcew_label, io_label := e.io_label }))

def MRow.k3 (r : MRow) : String × Int × String :=
  (r.area_fips, r.year, r.io_sector)

def MRow.k4 (r : MRow) : String × Int × Int × String :=
  (r.area_fips, r.year, r.qcew_sector, r.io_sector)

/-- A merged row's value tuple in the bridge group-by columns
(`bridge_cols`): the four key columns followed by the two optional label
columns, an absent column normalised to `none` so that it cannot split
groups. -/
def MRow.k6 (hasIL hasQL : Bool) (r : MRow) :
    String × Int × Int × String × Option String × Option String :=
  (r.area_fips, r.year, r.qcew_sector, r.io_sector,
   if hasIL then r.io_label else none, if hasQL then r.qcew_label else none)

/-- True when the row is NaN in a label column that belongs to
`bridge_cols`: pandas `groupby` (default `dropna=True`) silently drops
such rows from the bridge sums. -/
def hasNaGroupKey (hasIL hasQL : Bool) (r : MRow) : Bool :=
  (hasIL && r.io_label.isNone) || (hasQL && r.qcew_label.isNone)

/-- The merged rows that survive the bridge group-by's `dropna`. -/
def keptRows (hasIL hasQL : Bool) (merged : List MRow) : List MRow :=
  merged.filter (fun r => ! hasNaGroupKey hasIL hasQL r)

/-- `merged.groupby(["area_fips","year","io_sector"])["_weight_base"].transform("sum")`. -/
def ioTotal (merged : List MRow) (g : String × Int × String) : ℚ :=
  ((merged.filter (fun r => r.k3 = g)).map (fun r => r.base)).sum

/-- `merged["weight"] = (merged["_weight_base"] / merged["io_total"]).fillna(0)`. -/
def mWeight (merged : List MRow) (r : MRow) : PVal :=
  PVal.fillna0 (PVal.div r.base (ioTotal merged r.k3))

/-- Sort key for an optional label cell (`⊥` for `none`; the keys that
actually occur in a sort are never `none`, since NaN-labelled rows are
dropped by the group-by and an absent column is constantly `none`). -/
def encOpt (o : Option String) : WithBot (List Int) :=
  match o with
  | none => ⊥
  | some s => ↑(encStr s)

/-- Lexicographic key for the bridge group-by columns, in `bridge_cols`
order. -/
def lexK6 (k : String × Int × Int × String × Option String × Option String) :
    List Int ×ₗ (Int ×ₗ (Int ×ₗ (List Int ×ₗ (WithBot (List Int) ×ₗ WithBot (List Int))))) :=
  toLex (encStr k.1, toLex (k.2.1, toLex (k.2.2.1, toLex (encStr k.2.2.2.1,
    toLex (encOpt k.2.2.2.2.1, encOpt k.2.2.2.2.2)))))

/-- Lexicographic key for the aggregation group-by columns
(`agg_keys`: the three key columns plus `io_label` when present). -/
def lexK3L (k : String × Int × String × Option String) :
    List Int ×ₗ (Int ×ₗ (List Int ×ₗ WithBot (List Int))) :=
  toLex (encStr k.1, toLex (k.2.1, toLex (encStr k.2.2.1, encOpt k.2.2.2)))

/-- `drop_duplicates(subset=keys, keep="first")` by a key function. -/
def dedupByFirst [DecidableEq κ] (kf : α → κ) : List α → List α :=
  go []
where
  go (seen : List κ) : List α → List α
    | [] => []
    | a :: t => if kf a ∈ seen then go seen t else a :: go (kf a :: seen) t

/-- A bridge row: the label fields exist as columns only when present in
the crosswalk, and are `none` otherwise. -/
structure BridgeRow where
  area_fips : String
  year : Int
  qcew_sector : Int
  io_sector : String
  io_label : Option String
  qcew_label : Option String
  weight : PVal
deriving DecidableEq

/-- The four-key subset of `drop_duplicates` on the bridge. -/
def BridgeRow.k4 (b : BridgeRow) : String × Int × Int × String :=
  (b.area_fips, b.year, b.qcew_sector, b.io_sector)

/-- The distinct bridge group-by keys, ascending (pandas `groupby` sorts
its keys), over the rows surviving the group-by's `dropna`. -/
def bridgeKeys (hasIL hasQL : Bool) (merged : List MRow) :
    List (String × Int × Int × String × Option String × Option String) :=
  sortByKey lexK6 (dedupFirst ((keptRows hasIL hasQL merged).map (MRow.k6 hasIL hasQL)))

/-- The summed weight of one bridge group (the per-row weights are those
computed on the full merged frame, before the group-by). -/
def cellWeight (merged : List MRow) (hasIL hasQL : Bool)
    (k : String × Int × Int × String × Option String × Option String) : PVal :=
  PVal.psum (((keptRows hasIL hasQL merged).filter
    (fun r => MRow.k6 hasIL hasQL r = k)).map (mWeight merged))

def mkBridgeRow (merged : List MRow) (hasIL hasQL : Bool)
    (k : String × Int × Int × String × Option String × Option String) : BridgeRow :=
  { area_fips := k.1, year := k.2.1, qcew_sector := k.2.2.1, io_sector := k.2.2.2.1,
    io_label := k.2.2.2.2.1, qcew_label := k.2.2.2.2.2,
    weight := cellWeight merged hasIL hasQL k }

/-- `bridge = merged.groupby(bridge_cols, as_index=False)["weight"].sum()`
followed by `drop_duplicates(subset=the four keys, keep="first")`: one row
per distinct group key (rows NaN in a label group column having been
dropped by the group-by), keys in ascending order, weight = group sum;
then only the first row of each four-key survives. -/
def bridgeOf (hasIL hasQL : Bool) (merged : List MRow) : List BridgeRow :=
  dedupByFirst BridgeRow.k4
    ((bridgeKeys hasIL hasQL merged).map (mkBridgeRow merged hasIL hasQL))

structure IoAggRow where
  io_sector : String
  io_label : Option String
  year : Int
  area_fips : String
  tap_estabs_count : PVal
  tap_wages_est_3 : PVal
  tap_emplvl_est_3 : PVal
deriving DecidableEq

def IoAggRow.k3 (r : IoAggRow) : String × Int × String :=
  (r.area_fips, r.year, r.io_sector)

/-- `applied = qcew_for_apply.merge(bridge[...], on=["area_fips","year",
"qcew_sector"], how="left").dropna(subset=["io_sector"])`: left order
preserved, one output row per matching bridge row; unmatched (including
null `qcew_sector`) rows are dropped.  The source selects only the four
keys, `weight` and (when present) `io_label` from the bridge — the
`qcew_label` column never reaches `applied`, which the aggregation below
reflects by keying on `io_label` alone. -/
def appliedOf (cleaned : List CRow) (bridge : List BridgeRow) : List (CRow × BridgeRow) :=
  cleaned.flatMap (fun r =>
    (bridge.filter (fun b =>
      b.area_fips = r.area_fips ∧ b.year = r.year ∧ some b.qcew_sector = r.qcew_sector)).map
      (fun b => (r, b)))

/-- The value of an applied row in the `agg_keys` columns (`io_label` is a
key only when the column exists, i.e. when the crosswalk has it). -/
def aggKey (hasIL : Bool) (p : CRow × BridgeRow) : String × Int × String × Option String :=
  (p.2.area_fips, p.2.year, p.2.io_sector, if hasIL then p.2.io_label else none)

/-- `io_agg_weighted = applied.groupby(agg_keys, as_index=False).agg(...)`
with the weighted value columns `value * weight`; when absent, the
`io_label` column is added afterwards as `pd.NA` (`none` in either case
coincides with the normalised key).  This group-by's `dropna` drops
nothing: a bridge `io_label`, when the column exists, is a group key of
the bridge group-by and hence never NaN. -/
def ioAggWeighted (hasIL : Bool) (applied : List (CRow × BridgeRow)) : List IoAggRow :=
  (sortByKey lexK3L (dedupFirst (applied.map (aggKey hasIL)))).map
    (fun k =>
      let cell := applied.filter (fun p => aggKey hasIL p = k)
      { io_sector := k.2.2.1, io_label := k.2.2.2, year := k.2.1, area_fips := k.1,
        tap_estabs_count := PVal.psum (cell.map (fun p => PVal.mulQ p.1.vEstabs p.2.weight)),
        tap_wages_est_3 := PVal.psum (cell.map (fun p => PVal.mulQ p.1.vWages p.2.weight)),
        tap_emplvl_est_3 := PVal.psum (cell.map (fun p => PVal.mulQ p.1.vEmplvl p.2.weight)) })

/-- `df_409_out`: the coarse table reshaped straight into the IO aggregate
schema. -/
def df409Out (t : Qcew409Table) : List IoAggRow :=
  t.rows.map (fun r =>
    { io_sector := pyStrip r.sector_code
      io_label := if decide ("sector_name" ∈ t.cols) then r.sector_name else none
      year := if decide ("year" ∈ t.cols) then r.year else -1
      area_fips := zfill5 r.area_fips
      tap_estabs_count := .fin ((r.tap_estabs_count).getD 0)
      tap_wages_est_3 := .fin ((r.tap_wages_est_3).getD 0)
      tap_emplvl_est_3 := .fin ((r.tap_emplvl_est_3).getD 0) })

/-- Append the 409 rows whose (area, year, io_sector) key is absent from the
weighted aggregate, then deduplicate by key keeping the first row. -/
def ioAggOf (weighted fillSrc : List IoAggRow) : List IoAggRow :=
  let keysW := dedupFirst (weighted.map IoAggRow.k3)
  let keys409 := dedupFirst (fillSrc.map IoAggRow.k3)
  let missing := keys409.filter (fun k => ¬ (k ∈ keysW))
  let fills := fillSrc.filter (fun r => r.k3 ∈ missing)
  dedupByFirst IoAggRow.k3 (weighted ++ fills)

structure Crosswalk where
  bridge_df : List BridgeRow
  io_agg_df : List IoAggRow
deriving DecidableEq

/-- The cleaned detailed table of `build_crosswalk`. -/
def cleanedOf (qa : QcewAllTable) (basis : WeightBasis) : List CRow :=
  qa.rows.map (cleanAllRow (decide ("year" ∈ qa.cols)) basis)

/-- The `merged` frame of `build_crosswalk` (detailed rows joined to the
cleaned crosswalk, unmapped rows dropped). -/
def mergedOf (qa : QcewAllTable) (xw : XwTable) (basis : WeightBasis) : List MRow :=
  mergeAllXw (cleanedOf qa basis) (cleanXw xw.rows)

/-- The computational body of `build_crosswalk` (after schema validation). -/
def build_crosswalk_core (qa : QcewAllTable) (q409 : Qcew409Table) (xw : XwTable)
    (basis : WeightBasis) : Crosswalk :=
  let bridge := bridgeOf xw.hasIoLabel xw.hasQcewLabel (mergedOf qa xw basis)
  { bridge_df := bridge
    io_agg_df := ioAggOf
      (ioAggWeighted xw.hasIoLabel (appliedOf (cleanedOf qa basis) bridge))
      (df409Out q409) }

/-- `build_crosswalk`: validate the three inputs, then build the bridge and
the IO aggregate. -/
def build_crosswalk (qa : QcewAllTable) (q409 : Qcew409Table) (xw : XwTable)
    (basis : WeightBasis) : Except PdErr Crosswalk := do
  let _ ← read_qcew_crosswalk_all_and_409 qa q409 xw
  pure (build_crosswalk_core qa q409 xw basis)

/-! ### io_bridge.py — align_io_to_bea_402

Rows of the IO aggregate as seen by the aligner.  The `area_fips` and
`year` columns are optional in the source (`[c for c in ["area_fips",
"year"] if c in aligned.columns]`), so the table carries presence flags;
when a flag is off the corresponding row field is ignored by the
computation.  Numeric cells are `Option ℚ` with `none` = NaN. -/

structure ABRow where
  io_sector : String
  io_label : Option String
  area_fips : Option String
  year : Option Int
  tap_estabs_count : Option ℚ
  tap_wages_est_3 : Option ℚ
  tap_emplvl_est_3 : Option ℚ
deriving DecidableEq

structure ATable where
  hasArea : Bool
  hasYear : Bool
  rows : List ABRow
deriving DecidableEq

/-- Index of the first occurrence of `a` in a list (the position of a code
in the ordered categorical universe). -/
def idxOfD [DecidableEq α] (a : α) : List α → ℕ
  | [] => 0
  | b :: t => if a = b then 0 else idxOfD a t + 1

/-- Sort key for the `area_fips` column: absent column or NaN cell sorts
last (pandas `na_position="last"`). -/
def areaKey (hasArea : Bool) (r : ABRow) : WithTop (List Int) :=
  if hasArea then
    (match r.area_fips with
     | some a => ((encStr a : List Int) : WithTop (List Int))
     | none => ⊤)
  else ⊤

/-- Sort key for the `year` column. -/
def yearKey (hasYear : Bool) (r : ABRow) : WithTop Int :=
  if hasYear then
    (match r.year with
     | some y => ((y : Int) : WithTop Int)
     | none => ⊤)
  else ⊤

/-- The full `sort_values(key_cols + ["io_sector"], kind="stable")` key:
present key columns first, then the position of `io_sector` in the ordered
categorical code universe. -/
def alignKey (hasArea hasYear : Bool) (codes : List String) (r : ABRow) :
    WithTop (List Int) ×ₗ (WithTop Int ×ₗ ℕ) :=
  toLex (areaKey hasArea r, toLex (yearKey hasYear r, idxOfD r.io_sector codes))

/-- The grouping key of `aligned[key_cols].drop_duplicates()`: only the
present columns take part. -/
def comboKey (t : ATable) (r : ABRow) : Option String × Option Int :=
  (if t.hasArea then r.area_fips else none, if t.hasYear then r.year else none)

/-- `align_io_to_bea_402(io_agg_df, codes_file, keep_all_codes=...)`.
`codes` is the list produced by `load_402_sector_codes` (unique, file
order).  Always strips `io_sector` and drops codes outside the universe;
default mode sorts by the present key columns then categorical code order;
`keep_all_codes` densifies to the full (observed keys × codes) grid by a
left merge — note the merged-in rows for absent combinations keep pandas
NaN (`none`) in the numeric columns, while the no-key-columns branch pads
explicit zeros. -/
def align_io_to_bea_402 (t : ATable) (codes : List String) (keepAll : Bool) : ATable :=
  let rows := t.rows.map (fun r => { r with io_sector := pyStrip r.io_sector })
  let aligned := rows.filter (fun r => r.io_sector ∈ codes)
  if !keepAll then
    { t with rows := sortByKey (alignKey t.hasArea t.hasYear codes) aligned }
  else if !t.hasArea && !t.hasYear then
    let present := aligned.map (fun r => r.io_sector)
    let pad := (codes.filter (fun c => ¬ (c ∈ present))).map (fun c =>
      { io_sector := c, io_label := none, area_fips := none, year := none,
        tap_estabs_count := some 0, tap_wages_est_3 := some 0,
        tap_emplvl_est_3 := some 0 : ABRow })
    { t with rows := sortByKey (alignKey t.hasArea t.hasYear codes) (aligned ++ pad) }
  else
    let combos := dedupFirst (aligned.map (comboKey t))
    let out := combos.flatMap (fun k =>
      codes.flatMap (fun c =>
        let ms := aligned.filter (fun r => comboKey t r = k ∧ r.io_sector = c)
        if ms.isEmpty then
          [{ io_sector := c, io_label := none,
             area_fips := k.1, year := k.2,
             tap_estabs_count := none, tap_wages_est_3 := none,
             tap_emplvl_est_3 := none : ABRow }]
        else ms))
    { t with rows := sortByKey (alignKey t.hasArea t.hasYear codes) out }

/-! ### missing_bridge.py — impute_missing_sectors

A main-table row.  The three imputation targets
(`tap_estabs_count`, `tap_wages_est_3`, `tap_emplvl_est_3` — the default
`ImputationConfig.targets`) are a function from `Fin 3`; `none` = NaN.
The block of `impute_sector` that builds the feature matrix
(`pd.get_dummies`, area replication, `log1p`) and runs
`KNNImputer(n_neighbors=K, weights="distance")`, then `expm1`/`clip`, is
third-party floating-point code (scikit-learn); it is abstracted as a
parameter `fill pool i c` giving the value written into target `c` of the
row at absolute index `i`, computed from the accepted pool.  Everything
the claims quantify over — pool selection, the overwrite mask, the
iteration over sectors — is modelled from the source. -/

structure IRow where
  year : Int
  area_fips : String
  io_sector : String
  io_label : Option String
  tgt : Fin 3 → Option ℚ

instance : DecidableEq IRow := fun a b => by
  cases a; cases b
  exact decidable_of_iff _ (iff_of_eq (IRow.mk.injEq _ _ _ _ _ _ _ _ _ _).symm)

structure MSRow where
  io_sector : String
  io_label : Option String
deriving DecidableEq

/-- `df2['_sec'] = io_sector.astype(str).str.strip().str.upper().str[:6]`. -/
def secOf (s : String) : String :=
  strTake (pyUpper (pyStrip s)) 6

/-- The rows matched by `pm = df2['_sec'].str[:L].eq(sec_val[:L])`. -/
def poolRows (t : List IRow) (s : String) (L : ℕ) : List IRow :=
  t.filter (fun r => strTake (secOf r.io_sector) L = strTake s L)

/-- The acceptance test of one prefix length inside `get_pool`:
`pm.sum() >= K+1 and all(df2.loc[pm, c].notna().any() for c in targets)`. -/
def qualifiesB (t : List IRow) (K : ℕ) (s : String) (L : ℕ) : Bool :=
  decide (K + 1 ≤ (poolRows t s L).length) &&
    (List.finRange 3).all (fun c => (poolRows t s L).any (fun r => (r.tgt c).isSome))

/-- `get_pool(sec_val)`: try prefix lengths 6, 5, 4, 3 in that order and
return the first accepted one (`None` when no length qualifies). -/
def get_pool (t : List IRow) (K : ℕ) (s : String) : Option ℕ :=
  [6, 5, 4, 3].find? (qualifiesB t K s)

/-- `impute_sector(sec_val)` acting on the current table state `t`:
skip when the sector has no missing target, skip when `get_pool` fails,
otherwise overwrite exactly the missing target cells of the sector's rows
with values computed by `fill` from the accepted pool. -/
def impute_sector (fill : List IRow → ℕ → Fin 3 → ℚ) (K : ℕ) (s : String)
    (t : List IRow) : List IRow :=
  if !(t.any (fun r =>
      secOf r.io_sector = s ∧ (List.finRange 3).any (fun c => (r.tgt c).isNone))) then
    t
  else
    match get_pool t K s with
    | none => t
    | some L =>
      let pool := poolRows t s L
      mapWithIndex (fun i r =>
        if secOf r.io_sector = s then
          { r with tgt := fun c =>
              match r.tgt c with
              | some v => some v
              | none => some (fill pool i c) }
        else r) 0 t

/-- The loop `for s in df2_imputed['_sec'].unique(): impute_sector(s)`,
generalised to an arbitrary processing order. -/
def impute_all (fill : List IRow → ℕ → Fin 3 → ℚ) (K : ℕ)
    (order : List String) (t : List IRow) : List IRow :=
  order.foldl (fun acc s => impute_sector fill K s acc) t

/-- Step 1 of `impute_missing_sectors`: strip `io_sector` on both inputs,
cross the distinct `(year, area_fips)` keys with the distinct designated
`(io_sector, io_label)` pairs, drop combinations already present, and
append the remainder with all targets missing. -/
def augmented (df : List IRow) (ms : List MSRow) : List IRow :=
  let df' := df.map (fun r => { r with io_sector := pyStrip r.io_sector })
  let ms' := ms.map (fun r => { r with io_sector := pyStrip r.io_sector })
  let keys := dedupFirst (df'.map (fun r => (r.year, r.area_fips)))
  let pairs := dedupFirst (ms'.map (fun r => (r.io_sector, r.io_label)))
  let existing := df'.map (fun r => (r.year, r.area_fips, r.io_sector))
  let toAdd := keys.flatMap (fun k =>
    (pairs.filter (fun p => ¬ ((k.1, k.2, p.1) ∈ existing))).map (fun p =>
      { year := k.1, area_fips := k.2, io_sector := p.1, io_label := p.2,
        tgt := fun _ => none : IRow }))
  df' ++ toAdd

/-- `df2_imputed['_sec'].unique()`: distinct sector codes in first-seen
order. -/
def uniqueSecs (t : List IRow) : List String :=
  dedupFirst (t.map (fun r => secOf r.io_sector))

/-- `impute_missing_sectors(df_input, missing_sectors_input, config)`
(data path, after the column accesses): augment, then impute each distinct
sector code once, in first-seen order, each step reading the table state
left by the previous steps. -/
def impute_missing_sectors (fill : List IRow → ℕ → Fin 3 → ℚ) (K : ℕ)
    (df : List IRow) (ms : List MSRow) : List IRow :=
  let t := augmented df ms
  impute_all fill K (uniqueSecs t) t

/-- pandas single-column access `df["c"]`: raises `KeyError("c")`. -/
def getColE (cols : List String) (c : String) : Except PdErr Unit :=
  if c ∈ cols then .ok () else .error (.keyError c)

/-- pandas column-list access `df[["a","b"]]`: raises a KeyError naming
the requested columns that are not in the frame. -/
def getColsE (cols : List String) (cs : List String) : Except PdErr Unit :=
  if cs.filter (fun c => ¬ (c ∈ cols)) = [] then .ok ()
  else .error (.keyErrorList (cs.filter (fun c => ¬ (c ∈ cols))))

/-- `impute_missing_sectors` with its column accesses in source order:
`missing_sectors["io_sector"]` (line 53), `df["io_sector"]` (line 54),
`df[["year","area_fips"]]` (line 57), `missing_sectors[["io_sector",
"io_label"]]` (line 60).  There is no schema validation step. -/
def impute_missing_sectors_checked (dfCols msCols : List String)
    (fill : List IRow → ℕ → Fin 3 → ℚ) (K : ℕ)
    (df : List IRow) (ms : List MSRow) : Except PdErr (List IRow) :=
  match getColE msCols "io_sector" with
  | .error e => .error e
  | .ok _ =>
    match getColE dfCols "io_sector" with
    | .error e => .error e
    | .ok _ =>
      match getColsE dfCols ["year", "area_fips"] with
      | .error e => .error e
      | .ok _ =>
        match getColsE msCols ["io_sector", "io_label"] with
        | .error e => .error e
        | .ok _ => .ok (impute_missing_sectors fill K df ms)

/-- Mean imputation: a concrete, order-sensitive instance of the `fill`
parameter (each missing cell gets the mean of the non-missing values of
its target within the pool). -/
def fillMean (pool : List IRow) (_i : ℕ) (c : Fin 3) : ℚ :=
  let vs := pool.filterMap (fun r => r.tgt c)
  vs.sum / (vs.length : ℚ)

/-! ### Claim C1 — the build_crosswalk scenario -/

/-- The detailed table of the scenario: area "06073", sector 541100 with
wage 100 and sector 541200 with wage 300, year 2024. -/
def exAllC1 : QcewAllTable :=
  { cols := requiredAll ++ ["year"]
    rows := [
      { area_fips := "06073", naics_code := some 541100, tap_estabs_count := some 0,
        tap_wages_est_3 := some 100, tap_emplvl_est_3 := some 0, year := 2024 },
      { area_fips := "06073", naics_code := some 541200, tap_estabs_count := some 0,
        tap_wages_est_3 := some 300, tap_emplvl_est_3 := some 0, year := 2024 }] }

/-- An empty (but schema-complete) coarse table: no 409 back-fill. -/
def ex409C1 : Qcew409Table := { cols := required409 ++ ["year"], rows := [] }

/-- The crosswalk of the scenario: both sectors map to io_sector "5411";
no label columns. -/
def exXwC1 : XwTable :=
  { cols := requiredXw
    rows := [
      { qcew_sector := some 541100, io_sector := some "5411",
        qcew_label := none, io_label := none },
      { qcew_sector := some 541200, io_sector := some "5411",
        qcew_label := none, io_label := none }] }

/-- Full evaluation of the scenario: weights 1/4 and 3/4, but the
aggregated wage is 100·(1/4) + 300·(3/4) = 250, not 400. -/
theorem c1_core_eval : build_crosswalk_core exAllC1 ex409C1 exXwC1 .wWages =
    { bridge_df := [
        { area_fips := "06073", year := 2024, qcew_sector := 541100, io_sector := "5411",
          io_label := none, qcew_label := none, weight := .fin (1/4) },
        { area_fips := "06073", year := 2024, qcew_sector := 541200, io_sector := "5411",
          io_label := none, qcew_label := none, weight := .fin (3/4) }]
      io_agg_df := [
        { io_sector := "5411", io_label := none, year := 2024, area_fips := "06073",
          tap_estabs_count := .fin 0, tap_wages_est_3 := .fin 250,
          tap_emplvl_est_3 := .fin 0 }] } := by
  simp +decide [build_crosswalk_core, cleanedOf, mergedOf, cleanXw, cleanAllRow, mergeAllXw, bridgeOf,
    bridgeKeys, cellWeight, mkBridgeRow, keptRows, hasNaGroupKey, MRow.k6, BridgeRow.k4,
    XwTable.hasIoLabel, XwTable.hasQcewLabel, aggKey,
    appliedOf, ioAggWeighted, df409Out, ioAggOf, dedupByFirst, dedupByFirst.go, dedupFirst,
    dedupFirst.go, sortByKey, mWeight, ioTotal, MRow.k3, MRow.k4, IoAggRow.k3, lexK3L, lexK6,
    encOpt, encStr, zfill5, pyStrip, stripChars, trimL, trimR, PVal.div, PVal.fillna0, PVal.psum,
    PVal.isNan, PVal.add, PVal.mulQ, List.insertionSort, List.orderedInsert, exAllC1,
    ex409C1, exXwC1, requiredAll, required409, requiredXw]
  norm_num [PVal.add]

/-- Claim C1, counterexample: on the scenario input the single aggregate
row's wage_total is 250 = 100·0.25 + 300·0.75 (each detailed row is scaled
by its own weight before summing), not the 400 the claim asserts. -/
theorem c1_counterexample :
    (build_crosswalk_core exAllC1 ex409C1 exXwC1 .wWages).io_agg_df.map
        (fun r => r.tap_wages_est_3) = [PVal.fin 250] ∧ PVal.fin 250 ≠ PVal.fin 400 := by
  rw [c1_core_eval]
  refine ⟨rfl, ?_⟩
  intro h
  have : (250 : ℚ) = 400 := PVal.fin.inj h
  norm_num at this

/-- Claim C1 as amended: the scenario yields one bridge group
(06073, 2024, "5411") with two entries of weights 0.25 and 0.75, and one
aggregate row whose wage_total is 250 (the weight-scaled sum). -/
theorem c1_amended :
    build_crosswalk exAllC1 ex409C1 exXwC1 .wWages = .ok
      { bridge_df := [
          { area_fips := "06073", year := 2024, qcew_sector := 541100, io_sector := "5411",
            io_label := none, qcew_label := none, weight := .fin (1/4) },
          { area_fips := "06073", year := 2024, qcew_sector := 541200, io_sector := "5411",
            io_label := none, qcew_label := none, weight := .fin (3/4) }]
        io_agg_df := [
          { io_sector := "5411", io_label := none, year := 2024, area_fips := "06073",
            tap_estabs_count := .fin 0, tap_wages_est_3 := .fin 250,
            tap_emplvl_est_3 := .fin 0 }] } := by
  have h := c1_core_eval
  simp +decide [build_crosswalk, read_qcew_crosswalk_all_and_409, missingCols, sortStr,
    requiredAll, required409, requiredXw, exAllC1, ex409C1, exXwC1, List.insertionSort,
    List.orderedInsert]
  simpa [one_div] using h

/-- C3 failing input: one (area, year) pair with an "A" row only, universe
["A","B"]. -/
def exTblC3 : ATable :=
  { hasArea := true, hasYear := true
    rows := [
      { io_sector := "A", io_label := some "L", area_fips := some "06073",
        year := some 2024, tap_estabs_count := some 5, tap_wages_est_3 := some 6,
        tap_emplvl_est_3 := some 7 }] }

theorem c3_eval :
    align_io_to_bea_402 exTblC3 ["A", "B"] true =
      { hasArea := true, hasYear := true
        rows := [
          { io_sector := "A", io_label := some "L", area_fips := some "06073",
            year := some 2024, tap_estabs_count := some 5, tap_wages_est_3 := some 6,
            tap_emplvl_est_3 := some 7 },
          { io_sector := "B", io_label := none, area_fips := some "06073",
            year := some 2024, tap_estabs_count := none, tap_wages_est_3 := none,
            tap_emplvl_est_3 := none }] } ∧
    (none : Option ℚ) ≠ some 0 := by
  constructor
  · simp +decide [align_io_to_bea_402, comboKey, alignKey, areaKey, yearKey, idxOfD,
      sortByKey, List.insertionSort, List.orderedInsert, dedupFirst, dedupFirst.go,
      pyStrip, stripChars, trimL, trimR, encStr, exTblC3]
  · simp

/-! ### Claim C9 — schema validation of build_crosswalk -/

theorem mem_sortByKey {κ : Type} [LinearOrder κ] (kf : α → κ) (l : List α) (x : α) :
    x ∈ sortByKey kf l ↔ x ∈ l := by
  unfold sortByKey
  exact (List.perm_insertionSort _ l).mem_iff

theorem mem_missingCols (req cols : List String) (c : String) :
    c ∈ missingCols req cols ↔ c ∈ req ∧ c ∉ cols := by
  unfold missingCols sortStr
  rw [mem_sortByKey]
  simp

/-- Claim C9: if any of the three inputs is missing required columns,
`build_crosswalk` raises the schema `ValueError` for the first deficient
table in validation order, whose payload names exactly the missing columns
of that table (sorted); the result is an error, so no output is produced. -/
theorem c9_schema_validation (qa : QcewAllTable) (q409 : Qcew409Table) (xw : XwTable)
    (basis : WeightBasis) :
    (missingCols requiredAll qa.cols ≠ [] →
      build_crosswalk qa q409 xw basis =
        .error (.schemaMissing "QCEW ALL" (missingCols requiredAll qa.cols)) ∧
      ∀ c, c ∈ missingCols requiredAll qa.cols ↔ (c ∈ requiredAll ∧ c ∉ qa.cols)) ∧
    (missingCols requiredAll qa.cols = [] → missingCols required409 q409.cols ≠ [] →
      build_crosswalk qa q409 xw basis =
        .error (.schemaMissing "QCEW 409" (missingCols required409 q409.cols)) ∧
      ∀ c, c ∈ missingCols required409 q409.cols ↔ (c ∈ required409 ∧ c ∉ q409.cols)) ∧
    (missingCols requiredAll qa.cols = [] → missingCols required409 q409.cols = [] →
      missingCols requiredXw xw.cols ≠ [] →
      build_crosswalk qa q409 xw basis =
        .error (.schemaMissing "Crosswalk" (missingCols requiredXw xw.cols)) ∧
      ∀ c, c ∈ missingCols requiredXw xw.cols ↔ (c ∈ requiredXw ∧ c ∉ xw.cols)) := by
  refine ⟨fun h1 => ⟨?_, fun c => mem_missingCols _ _ c⟩,
    fun h1 h2 => ⟨?_, fun c => mem_missingCols _ _ c⟩,
    fun h1 h2 h3 => ⟨?_, fun c => mem_missingCols _ _ c⟩⟩
  · have hread : read_qcew_crosswalk_all_and_409 qa q409 xw =
        .error (.schemaMissing "QCEW ALL" (missingCols requiredAll qa.cols)) := by
      unfold read_qcew_crosswalk_all_and_409
      rw [if_pos h1]
    unfold build_crosswalk
    rw [hread]
    rfl
  · have hread : read_qcew_crosswalk_all_and_409 qa q409 xw =
        .error (.schemaMissing "QCEW 409" (missingCols required409 q409.cols)) := by
      unfold read_qcew_crosswalk_all_and_409
      rw [if_neg (not_ne_iff.mpr h1), if_pos h2]
    unfold build_crosswalk
    rw [hread]
    rfl
  · have hread : read_qcew_crosswalk_all_and_409 qa q409 xw =
        .error (.schemaMissing "Crosswalk" (missingCols requiredXw xw.cols)) := by
      unfold read_qcew_crosswalk_all_and_409
      rw [if_neg (not_ne_iff.mpr h1), if_neg (not_ne_iff.mpr h2), if_pos h3]
    unfold build_crosswalk
    rw [hread]
    rfl

/-- Witness for C9 at a concrete input: a QCEW ALL table having only
`area_fips` fails immediately, naming the four other required columns in
sorted order. -/
theorem c9_witness :
    build_crosswalk { cols := ["area_fips"], rows := [] } { cols := [], rows := [] }
        { cols := [], rows := [] } .wWages =
      .error (.schemaMissing "QCEW ALL"
        ["naics_code", "tap_emplvl_est_3", "tap_estabs_count", "tap_wages_est_3"]) ∧
    ∀ c, c ∈ (["naics_code", "tap_emplvl_est_3", "tap_estabs_count",
        "tap_wages_est_3"] : List String) ↔
      (c ∈ requiredAll ∧ c ∉ (["area_fips"] : List String)) := by
  have heval : missingCols requiredAll ["area_fips"] =
      ["naics_code", "tap_emplvl_est_3", "tap_estabs_count", "tap_wages_est_3"] := by
    simp +decide [missingCols, sortStr, sortByKey, encStr, requiredAll,
      List.insertionSort, List.orderedInsert]
  have h := (c9_schema_validation { cols := ["area_fips"], rows := [] }
    { cols := [], rows := [] } { cols := [], rows := [] } .wWages).1 (by rw [heval]; simp)
  rw [heval] at h
  exact h

/-! ### Claim C10 — impute_missing_sectors has no schema validation -/

/-- Claim C10: `impute_missing_sectors` never raises the schema error the
other stages use.  A main table lacking `year`, `area_fips` or `io_sector`,
or a missing-sectors table lacking `io_sector` or `io_label`, makes the
call fail with a raw pandas key-lookup error; and that error can fail to
name the full set of missing columns — with the main table lacking both
`io_sector` and `year`, only `io_sector` is named. -/
theorem c10_no_schema_validation :
    (∀ (dfCols msCols : List String) (fill : List IRow → ℕ → Fin 3 → ℚ) (K : ℕ)
        (df : List IRow) (ms : List MSRow),
      ("io_sector" ∉ dfCols ∨ "year" ∉ dfCols ∨ "area_fips" ∉ dfCols ∨
        "io_sector" ∉ msCols ∨ "io_label" ∉ msCols) →
      ∃ e, impute_missing_sectors_checked dfCols msCols fill K df ms = .error e ∧
        ∀ tbl cs, e ≠ .schemaMissing tbl cs) ∧
    (∀ (fill : List IRow → ℕ → Fin 3 → ℚ) (K : ℕ) (df : List IRow) (ms : List MSRow),
      impute_missing_sectors_checked ["area_fips"] ["io_sector", "io_label"] fill K df ms =
        .error (.keyError "io_sector") ∧
      ("year" : String) ∉ (["area_fips"] : List String) ∧
      ("year" : String) ∉ (["io_sector"] : List String)) := by
  constructor
  · intro dfCols msCols fill K df ms h
    by_cases h1 : "io_sector" ∈ msCols
    · by_cases h2 : "io_sector" ∈ dfCols
      · by_cases h3 : (List.filter (fun c => decide (c ∉ dfCols)) ["year", "area_fips"]) = []
        · have hy : "year" ∈ dfCols := by
            by_contra hy
            have hmem : "year" ∈ List.filter (fun c => decide (c ∉ dfCols))
                ["year", "area_fips"] := by
              simp [List.mem_filter, hy]
            rw [h3] at hmem
            exact absurd hmem (List.not_mem_nil _)
          have ha : "area_fips" ∈ dfCols := by
            by_contra ha
            have hmem : "area_fips" ∈ List.filter (fun c => decide (c ∉ dfCols))
                ["year", "area_fips"] := by
              simp [List.mem_filter, ha]
            rw [h3] at hmem
            exact absurd hmem (List.not_mem_nil _)
          have h4 : "io_label" ∉ msCols := by
            rcases h with h | h | h | h | h
            · exact absurd h2 h
            · exact absurd hy h
            · exact absurd ha h
            · exact absurd h1 h
            · exact h
          have h5 : (List.filter (fun c => decide (c ∉ msCols))
              ["io_sector", "io_label"]) ≠ [] := by
            intro hc
            have hmem : "io_label" ∈ List.filter (fun c => decide (c ∉ msCols))
                ["io_sector", "io_label"] := by
              simp [List.mem_filter, h4]
            rw [hc] at hmem
            exact absurd hmem (List.not_mem_nil _)
          refine ⟨.keyErrorList (List.filter (fun c => decide (c ∉ msCols))
            ["io_sector", "io_label"]), ?_, by intro tbl cs; simp⟩
          unfold impute_missing_sectors_checked getColE getColsE
          rw [if_pos h1, if_pos h2, if_pos h3, if_neg h5]
        · refine ⟨.keyErrorList (List.filter (fun c => decide (c ∉ dfCols))
            ["year", "area_fips"]), ?_, by intro tbl cs; simp⟩
          unfold impute_missing_sectors_checked getColE getColsE
          rw [if_pos h1, if_pos h2, if_neg h3]
      · refine ⟨.keyError "io_sector", ?_, by intro tbl cs; simp⟩
        unfold impute_missing_sectors_checked getColE getColsE
        rw [if_pos h1, if_neg h2]
    · refine ⟨.keyError "io_sector", ?_, by intro tbl cs; simp⟩
      unfold impute_missing_sectors_checked getColE getColsE
      rw [if_neg h1]
  · intro fill K df ms
    refine ⟨?_, by simp, by simp⟩
    unfold impute_missing_sectors_checked getColE getColsE
    rw [if_pos (by simp), if_neg (by simp)]

/-- Witness for C10: the main table has only `area_fips`; the call fails
with the raw `KeyError("io_sector")`, not a schema error. -/
theorem c10_witness :
    ∃ e, impute_missing_sectors_checked ["area_fips"] ["io_sector", "io_label"]
        (fun _ _ _ => 0) 5 [] [] = .error e ∧ ∀ tbl cs, e ≠ .schemaMissing tbl cs :=
  c10_no_schema_validation.1 ["area_fips"] ["io_sector", "io_label"] (fun _ _ _ => 0) 5 [] []
    (Or.inl (by decide))

/-! ### Claim C7 — imputation never alters non-missing cells -/

theorem mapWithIndex_getElem (f : ℕ → α → α) (n : ℕ) (l : List α) (i : ℕ) :
    (mapWithIndex f n l)[i]? = (l[i]?).map (f (n + i)) := by
  induction l generalizing n i with
  | nil => simp [mapWithIndex]
  | cons a t ih =>
    cases i with
    | zero => simp [mapWithIndex]
    | succ j =>
      simp only [mapWithIndex, List.getElem?_cons_succ, ih (n + 1) j]
      have : n + 1 + j = n + (j + 1) := by omega
      rw [this]

/-- One `impute_sector` step keeps every row in place, preserves all
non-target fields, and preserves every already-present target value. -/
theorem impute_sector_row (fill : List IRow → ℕ → Fin 3 → ℚ) (K : ℕ) (s : String)
    (t : List IRow) (i : ℕ) (r : IRow) (h : t[i]? = some r) :
    ∃ r', (impute_sector fill K s t)[i]? = some r' ∧
      r'.year = r.year ∧ r'.area_fips = r.area_fips ∧ r'.io_sector = r.io_sector ∧
      r'.io_label = r.io_label ∧ ∀ c v, r.tgt c = some v → r'.tgt c = some v := by
  unfold impute_sector
  split
  · exact ⟨r, h, rfl, rfl, rfl, rfl, fun c v hv => hv⟩
  · split
    · exact ⟨r, h, rfl, rfl, rfl, rfl, fun c v hv => hv⟩
    · rw [mapWithIndex_getElem, h]
      simp only [Option.map_some']
      split
      · refine ⟨_, rfl, rfl, rfl, rfl, rfl, fun c v hv => ?_⟩
        simp [hv]
      · exact ⟨r, rfl, rfl, rfl, rfl, rfl, fun c v hv => hv⟩

/-- Iterating `impute_sector` over any processing order keeps rows in
place, preserves non-target fields and already-present target values. -/
theorem impute_all_row (fill : List IRow → ℕ → Fin 3 → ℚ) (K : ℕ) (order : List String)
    (t : List IRow) (i : ℕ) (r : IRow) (h : t[i]? = some r) :
    ∃ r', (impute_all fill K order t)[i]? = some r' ∧
      r'.year = r.year ∧ r'.area_fips = r.area_fips ∧ r'.io_sector = r.io_sector ∧
      r'.io_label = r.io_label ∧ ∀ c v, r.tgt c = some v → r'.tgt c = some v := by
  induction order generalizing t r with
  | nil => exact ⟨r, h, rfl, rfl, rfl, rfl, fun c v hv => hv⟩
  | cons s rest ih =>
    obtain ⟨r1, h1, hy1, ha1, hs1, hl1, ht1⟩ := impute_sector_row fill K s t i r h
    obtain ⟨r2, h2, hy2, ha2, hs2, hl2, ht2⟩ := ih (impute_sector fill K s t) r1 h1
    exact ⟨r2, h2, hy2.trans hy1, ha2.trans ha1, hs2.trans hs1, hl2.trans hl1,
      fun c v hv => ht2 c v (ht1 c v hv)⟩

/-- The gap-insertion step leaves the original rows in place (with
`io_sector` stripped), in particular their target cells. -/
theorem augmented_getElem (df : List IRow) (ms : List MSRow) (i : ℕ) (r : IRow)
    (h : df[i]? = some r) :
    (augmented df ms)[i]? = some { r with io_sector := pyStrip r.io_sector } := by
  have hlen : i < df.length := by
    rcases List.getElem?_eq_some_iff.mp h with ⟨hl, _⟩
    exact hl
  unfold augmented
  rw [List.getElem?_append_left (by simpa using hlen), List.getElem?_map, h]
  rfl

/-- Claim C7: a target value that is non-missing in the table passed to
`impute_missing_sectors` is unchanged in the returned table (imputation
only ever writes cells that are missing at the time of the write, and the
row order of the input is preserved as a prefix of the output). -/
theorem c7_non_missing_preserved (fill : List IRow → ℕ → Fin 3 → ℚ) (K : ℕ)
    (df : List IRow) (ms : List MSRow) (i : ℕ) (r : IRow) (c : Fin 3) (v : ℚ)
    (h : df[i]? = some r) (hv : r.tgt c = some v) :
    ∃ r', (impute_missing_sectors fill K df ms)[i]? = some r' ∧ r'.tgt c = some v := by
  have haug := augmented_getElem df ms i r h
  obtain ⟨r', h', _, _, _, _, ht⟩ :=
    impute_all_row fill K (uniqueSecs (augmented df ms)) (augmented df ms) i
      { r with io_sector := pyStrip r.io_sector } haug
  exact ⟨r', h', ht c v hv⟩

/-- Witness for C7 at a concrete input: a present value 5 survives the
call even though the fill function writes 7 everywhere it fills. -/
theorem c7_witness :
    ∃ r', (impute_missing_sectors (fun _ _ _ => 7) 0
        [{ year := 2020, area_fips := "01001", io_sector := "111111", io_label := none,
           tgt := fun _ => some 5 }] [])[0]? = some r' ∧ r'.tgt 0 = some 5 :=
  c7_non_missing_preserved (fun _ _ _ => 7) 0
    [{ year := 2020, area_fips := "01001", io_sector := "111111", io_label := none,
       tgt := fun _ => some 5 }] [] 0
    { year := 2020, area_fips := "01001", io_sector := "111111", io_label := none,
      tgt := fun _ => some 5 } 0 5 rfl rfl

/-! ### Claim C6 — hierarchical pool selection -/

theorem length_filter_mapWithIndex (f : ℕ → α → α) (p : α → Bool) (n : ℕ) (l : List α)
    (hf : ∀ i a, p (f i a) = p a) :
    ((mapWithIndex f n l).filter p).length = (l.filter p).length := by
  induction l generalizing n with
  | nil => rfl
  | cons a t ih =>
    simp only [mapWithIndex, List.filter_cons, hf n a]
    cases hp : p a <;> simp [ih (n + 1)]

/-- `impute_sector` never changes which rows match a prefix pool, because
it never touches `io_sector`. -/
theorem poolRows_length_impute_sector (fill : List IRow → ℕ → Fin 3 → ℚ) (K : ℕ)
    (s' s : String) (t : List IRow) (L : ℕ) :
    (poolRows (impute_sector fill K s' t) s L).length = (poolRows t s L).length := by
  unfold impute_sector
  split
  · rfl
  · split
    · rfl
    · unfold poolRows
      exact length_filter_mapWithIndex _ _ 0 t (by
        intro i a
        split <;> rfl)

/-- Rows of other sectors are returned untouched by `impute_sector`. -/
theorem impute_sector_row_other (fill : List IRow → ℕ → Fin 3 → ℚ) (K : ℕ) (s' : String)
    (t : List IRow) (i : ℕ) (r : IRow) (h : t[i]? = some r)
    (hs : secOf r.io_sector ≠ s') : (impute_sector fill K s' t)[i]? = some r := by
  unfold impute_sector
  split
  · exact h
  · split
    · exact h
    · rw [mapWithIndex_getElem, h, Option.map_some']
      rw [if_neg hs]

theorem get_pool_none_iff (t : List IRow) (K : ℕ) (s : String) :
    get_pool t K s = none ↔ ∀ L ∈ ([6, 5, 4, 3] : List ℕ), qualifiesB t K s L = false := by
  unfold get_pool
  rw [List.find?_eq_none]
  constructor
  · intro h L hL
    simpa using h L hL
  · intro h L hL
    simp [h L hL]

theorem impute_sector_of_no_pool (fill : List IRow → ℕ → Fin 3 → ℚ) (K : ℕ) (s : String)
    (t : List IRow) (h : get_pool t K s = none) : impute_sector fill K s t = t := by
  unfold impute_sector
  split
  · rfl
  · rw [h]

theorem finRange3 : List.finRange 3 = [0, 1, 2] := by decide

theorem impute_all_append (fill : List IRow → ℕ → Fin 3 → ℚ) (K : ℕ)
    (o1 o2 : List String) (t : List IRow) :
    impute_all fill K (o1 ++ o2) t = impute_all fill K o2 (impute_all fill K o1 t) := by
  unfold impute_all
  rw [List.foldl_append]

theorem impute_all_cons (fill : List IRow → ℕ → Fin 3 → ℚ) (K : ℕ)
    (s : String) (o : List String) (t : List IRow) :
    impute_all fill K (s :: o) t = impute_all fill K o (impute_sector fill K s t) := rfl

/-- A row whose sector code never occurs in the processing order passes
through `impute_all` bit-identical (each step only writes rows of the
sector it processes). -/
theorem impute_all_row_untouched (fill : List IRow → ℕ → Fin 3 → ℚ) (K : ℕ)
    (order : List String) :
    ∀ (t : List IRow) (i : ℕ) (r : IRow), t[i]? = some r →
      ¬ secOf r.io_sector ∈ order → (impute_all fill K order t)[i]? = some r := by
  induction order with
  | nil => intro t i r h _; exact h
  | cons s' rest ih =>
    intro t i r h hs
    rw [impute_all_cons]
    refine ih (impute_sector fill K s' t) i r ?_ ?_
    · exact impute_sector_row_other fill K s' t i r h
        (fun hc => hs (hc ▸ List.mem_cons_self _ _))
    · exact fun hc => hs (List.mem_cons_of_mem _ hc)

/-- Claim C6:
1. a prefix length qualifies exactly when its pool has at least
   `k_neighbors + 1` rows and every target has a non-missing value in it;
2. `get_pool` tries 6, 5, 4, 3 in that order and returns the first
   qualifying length;
3. `get_pool` returns `None` exactly when no length qualifies;
4. with no qualifying length, the sector's step leaves the whole table
   unchanged and returns normally (the function is total — no error);
5. in the full call, a sector for which no prefix length qualifies at the
   moment the pass reaches it (each distinct sector code is processed
   exactly once, in first-seen order) keeps all its rows — missing cells
   included — bit-identical to the augmented table: the fills of other
   sectors never write its rows, and its own step is the identity. -/
theorem c6_pool_selection :
    (∀ (t : List IRow) (K : ℕ) (s : String) (L : ℕ),
      qualifiesB t K s L = true ↔
        (K + 1 ≤ (poolRows t s L).length ∧
          ∀ c : Fin 3, ∃ r ∈ poolRows t s L, (r.tgt c).isSome)) ∧
    (∀ (t : List IRow) (K : ℕ) (s : String),
      (get_pool t K s = some 6 ↔ qualifiesB t K s 6 = true) ∧
      (get_pool t K s = some 5 ↔
        qualifiesB t K s 6 = false ∧ qualifiesB t K s 5 = true) ∧
      (get_pool t K s = some 4 ↔
        qualifiesB t K s 6 = false ∧ qualifiesB t K s 5 = false ∧
        qualifiesB t K s 4 = true) ∧
      (get_pool t K s = some 3 ↔
        qualifiesB t K s 6 = false ∧ qualifiesB t K s 5 = false ∧
        qualifiesB t K s 4 = false ∧ qualifiesB t K s 3 = true)) ∧
    (∀ (t : List IRow) (K : ℕ) (s : String),
      get_pool t K s = none ↔ ∀ L ∈ ([6, 5, 4, 3] : List ℕ), qualifiesB t K s L = false) ∧
    (∀ (fill : List IRow → ℕ → Fin 3 → ℚ) (K : ℕ) (s : String) (t : List IRow),
      get_pool t K s = none → impute_sector fill K s t = t) ∧
    (∀ (fill : List IRow → ℕ → Fin 3 → ℚ) (K : ℕ) (df : List IRow) (ms : List MSRow)
        (o1 o2 : List String) (i : ℕ) (r : IRow),
      uniqueSecs (augmented df ms) = o1 ++ secOf r.io_sector :: o2 →
      (augmented df ms)[i]? = some r →
      get_pool (impute_all fill K o1 (augmented df ms)) K (secOf r.io_sector) = none →
      (impute_missing_sectors fill K df ms)[i]? = some r) := by
  refine ⟨?_, ?_, get_pool_none_iff, impute_sector_of_no_pool, ?_⟩
  · intro t K s L
    unfold qualifiesB
    rw [Bool.and_eq_true, List.all_eq_true]
    simp [List.any_eq_true]
  · intro t K s
    unfold get_pool
    refine ⟨?_, ?_, ?_, ?_⟩
    · by_cases h6 : qualifiesB t K s 6 = true
      · rw [List.find?_cons_of_pos _ h6]
        simp [h6]
      · rw [List.find?_cons_of_neg _ h6]
        constructor
        · intro h
          have hm := List.mem_of_find?_eq_some h
          simp at hm
        · intro h
          exact absurd h h6
    · by_cases h6 : qualifiesB t K s 6 = true
      · rw [List.find?_cons_of_pos _ h6]
        constructor
        · intro h
          exact absurd (Option.some.inj h) (by omega)
        · rintro ⟨h6f, -⟩
          rw [h6f] at h6
          exact absurd h6 (by simp)
      · rw [List.find?_cons_of_neg _ h6]
        by_cases h5 : qualifiesB t K s 5 = true
        · rw [List.find?_cons_of_pos _ h5]
          simp [h5, Bool.eq_false_iff, h6]
        · rw [List.find?_cons_of_neg _ h5]
          constructor
          · intro h
            have hm := List.mem_of_find?_eq_some h
            simp at hm
          · rintro ⟨-, h5t⟩
            exact absurd h5t h5
    · by_cases h6 : qualifiesB t K s 6 = true
      · rw [List.find?_cons_of_pos _ h6]
        constructor
        · intro h
          exact absurd (Option.some.inj h) (by omega)
        · rintro ⟨h6f, -⟩
          rw [h6f] at h6
          exact absurd h6 (by simp)
      · rw [List.find?_cons_of_neg _ h6]
        by_cases h5 : qualifiesB t K s 5 = true
        · rw [List.find?_cons_of_pos _ h5]
          constructor
          · intro h
            exact absurd (Option.some.inj h) (by omega)
          · rintro ⟨-, h5f, -⟩
            rw [h5f] at h5
            exact absurd h5 (by simp)
        · rw [List.find?_cons_of_neg _ h5]
          by_cases h4 : qualifiesB t K s 4 = true
          · rw [List.find?_cons_of_pos _ h4]
            simp [h4, Bool.eq_false_iff, h6, h5]
          · rw [List.find?_cons_of_neg _ h4]
            constructor
            · intro h
              have hm := List.mem_of_find?_eq_some h
              simp at hm
            · rintro ⟨-, -, h4t⟩
              exact absurd h4t h4
    · by_cases h6 : qualifiesB t K s 6 = true
      · rw [List.find?_cons_of_pos _ h6]
        constructor
        · intro h
          exact absurd (Option.some.inj h) (by omega)
        · rintro ⟨h6f, -⟩
          rw [h6f] at h6
          exact absurd h6 (by simp)
      · rw [List.find?_cons_of_neg _ h6]
        by_cases h5 : qualifiesB t K s 5 = true
        · rw [List.find?_cons_of_pos _ h5]
          constructor
          · intro h
            exact absurd (Option.some.inj h) (by omega)
          · rintro ⟨-, h5f, -⟩
            rw [h5f] at h5
            exact absurd h5 (by simp)
        · rw [List.find?_cons_of_neg _ h5]
          by_cases h4 : qualifiesB t K s 4 = true
          · rw [List.find?_cons_of_pos _ h4]
            constructor
            · intro h
              exact absurd (Option.some.inj h) (by omega)
            · rintro ⟨-, -, h4f, -⟩
              rw [h4f] at h4
              exact absurd h4 (by simp)
          · rw [List.find?_cons_of_neg _ h4]
            by_cases h3 : qualifiesB t K s 3 = true
            · rw [List.find?_cons_of_pos _ h3]
              simp [h3, Bool.eq_false_iff, h6, h5, h4]
            · rw [List.find?_cons_of_neg _ h3]
              constructor
              · intro h
                simp at h
              · rintro ⟨-, -, -, h3t⟩
                exact absurd h3t h3
  · intro fill K df ms o1 o2 i r hdec h hpool
    have hnd : (uniqueSecs (augmented df ms)).Nodup := nodup_dedupFirst _
    rw [hdec] at hnd
    have hsplit := List.nodup_append.mp hnd
    have hs1 : ¬ secOf r.io_sector ∈ o1 := fun hc =>
      hsplit.2.2 hc (List.mem_cons_self _ _)
    have hs2 : ¬ secOf r.io_sector ∈ o2 := (List.nodup_cons.mp hsplit.2.1).1
    show (impute_all fill K (uniqueSecs (augmented df ms)) (augmented df ms))[i]? = some r
    rw [hdec, impute_all_append, impute_all_cons,
      impute_sector_of_no_pool fill K _ _ hpool]
    exact impute_all_row_untouched fill K o2 _ i r
      (impute_all_row_untouched fill K o1 _ i r h hs1) hs2

/-- A one-row table for the C6 witness. -/
def exRowC6 : IRow :=
  { year := 2020, area_fips := "01001", io_sector := "111111", io_label := none,
    tgt := fun _ => none }

/-- Witness for C6: a single-row table whose pools all have one row while
k_neighbors = 5; when its only sector is processed no length qualifies and
the call returns the row unchanged, missing target included. -/
theorem c6_witness :
    (impute_missing_sectors (fun _ _ _ => 9) 5 [exRowC6] [])[0]? = some exRowC6 := by
  refine c6_pool_selection.2.2.2.2 (fun _ _ _ => 9) 5 [exRowC6] [] [] [] 0 exRowC6 ?_ ?_ ?_
  · simp +decide [uniqueSecs, augmented, dedupFirst, dedupFirst.go, exRowC6, secOf,
      pyStrip, stripChars, trimL, trimR, pyUpper, strTake]
  · simp +decide [exRowC6, augmented, dedupFirst, dedupFirst.go, pyStrip, stripChars,
      trimL, trimR]
  · simp +decide [impute_all, get_pool, qualifiesB, poolRows, augmented, dedupFirst,
      dedupFirst.go, exRowC6, secOf, pyStrip, stripChars, trimL, trimR, pyUpper,
      strTake, finRange3, List.find?]

/-! ### Claim C2 — pools read the mutating table, so order matters -/

/-- C2 example table: sector 111110 has rows (missing, 100, 200), sector
111111 has two all-missing rows, sector 111112 has one row with 400. -/
def dfC2 : List IRow := [
  { year := 2020, area_fips := "01001", io_sector := "111110", io_label := none,
    tgt := fun _ => none },
  { year := 2020, area_fips := "01001", io_sector := "111110", io_label := none,
    tgt := fun _ => some 100 },
  { year := 2020, area_fips := "01001", io_sector := "111110", io_label := none,
    tgt := fun _ => some 200 },
  { year := 2020, area_fips := "01001", io_sector := "111111", io_label := none,
    tgt := fun _ => none },
  { year := 2020, area_fips := "01001", io_sector := "111111", io_label := none,
    tgt := fun _ => none },
  { year := 2020, area_fips := "01001", io_sector := "111112", io_label := none,
    tgt := fun _ => some 400 }]

theorem c2_code_order :
    impute_missing_sectors fillMean 1 dfC2 [] =
      impute_all fillMean 1 ["111110", "111111", "111112"] (augmented dfC2 []) := by
  have huniq : uniqueSecs (augmented dfC2 []) = ["111110", "111111", "111112"] := by
    simp +decide [uniqueSecs, augmented, dedupFirst, dedupFirst.go, dfC2, secOf, pyStrip,
      stripChars, trimL, trimR, pyUpper, strTake]
  show impute_all fillMean 1 (uniqueSecs (augmented dfC2 [])) (augmented dfC2 []) = _
  rw [huniq]

/-- Claim C2, counterexample: with mean-fill as the imputation kernel and
k_neighbors = 1, processing sector 111111 before 111110 yields a different
returned table than the code's own order (111110 first): row 3's target
is 425/2 when 111110 is processed first (its freshly filled value 150
enters 111111's length-5 pool) but 700/3 when 111111 goes first. -/
theorem c2_counterexample :
    impute_all fillMean 1 ["111111", "111110", "111112"] (augmented dfC2 []) ≠
      impute_missing_sectors fillMean 1 dfC2 [] ∧
    ((impute_missing_sectors fillMean 1 dfC2 [])[3]?.map (fun r => r.tgt 0)) =
      some (some (425/2)) ∧
    ((impute_all fillMean 1 ["111111", "111110", "111112"] (augmented dfC2 []))[3]?.map
      (fun r => r.tgt 0)) = some (some (700/3)) := by
  have h1 : ((impute_missing_sectors fillMean 1 dfC2 [])[3]?.map (fun r => r.tgt 0)) =
      some (some (425/2)) := by
    rw [c2_code_order]
    simp +decide [impute_all, impute_sector, get_pool, qualifiesB, poolRows, fillMean,
      augmented, dedupFirst, dedupFirst.go, dfC2, secOf, pyStrip, stripChars, trimL, trimR,
      pyUpper, strTake, mapWithIndex, List.find?, finRange3]
    norm_num
  have h2 : ((impute_all fillMean 1 ["111111", "111110", "111112"]
      (augmented dfC2 []))[3]?.map (fun r => r.tgt 0)) = some (some (700/3)) := by
    simp +decide [impute_all, impute_sector, get_pool, qualifiesB, poolRows, fillMean,
      augmented, dedupFirst, dedupFirst.go, dfC2, secOf, pyStrip, stripChars, trimL, trimR,
      pyUpper, strTake, mapWithIndex, List.find?, finRange3]
    norm_num
  refine ⟨?_, h1, h2⟩
  intro heq
  rw [heq] at h2
  rw [h1] at h2
  have : (425/2 : ℚ) = 700/3 := by
    have := Option.some.inj (Option.some.inj h2)
    exact this
  norm_num at this

/-- Claim C2 as amended: each sector's pool is computed from the table as
it stands when that sector is processed, so a fill for one sector does
influence the pool (and the filled values) of a sector processed later in
the same call: after 111110's step, 111111's length-5 pool differs from
the pre-fill pool (row 0's target is now filled), and 111111 does accept
length 5. -/
theorem c2_amended :
    (poolRows (impute_sector fillMean 1 "111110" (augmented dfC2 [])) "111111" 5).map
        (fun r => r.tgt 0) ≠
      (poolRows (augmented dfC2 []) "111111" 5).map (fun r => r.tgt 0) ∧
    get_pool (augmented dfC2 []) 1 "111111" = some 5 := by
  have h1 : (poolRows (impute_sector fillMean 1 "111110" (augmented dfC2 []))
      "111111" 5).map (fun r => r.tgt 0) =
      [some 150, some 100, some 200, none, none, some 400] := by
    simp +decide [impute_sector, get_pool, qualifiesB, poolRows, fillMean,
      augmented, dedupFirst, dedupFirst.go, dfC2, secOf, pyStrip, stripChars, trimL, trimR,
      pyUpper, strTake, mapWithIndex, List.find?, finRange3]
    norm_num
  have h2 : (poolRows (augmented dfC2 []) "111111" 5).map (fun r => r.tgt 0) =
      [none, some 100, some 200, none, none, some 400] := by
    simp +decide [poolRows, augmented, dedupFirst, dedupFirst.go, dfC2, secOf, pyStrip,
      stripChars, trimL, trimR, pyUpper, strTake]
  refine ⟨?_, ?_⟩
  · rw [h1, h2]
    simp
  · simp +decide [get_pool, qualifiesB, poolRows, augmented, dedupFirst, dedupFirst.go,
      dfC2, secOf, pyStrip, stripChars, trimL, trimR, pyUpper, strTake, List.find?,
      finRange3]

/-! ### List sum lemmas for the weight claims -/

theorem sum_map_nonneg (f : α → ℚ) (l : List α) (h : ∀ x ∈ l, 0 ≤ f x) :
    0 ≤ (l.map f).sum := by
  induction l with
  | nil => simp
  | cons a t ih =>
    simp only [List.map_cons, List.sum_cons]
    have ha := h a (List.mem_cons_self _ _)
    have ht := ih (fun x hx => h x (List.mem_cons_of_mem _ hx))
    linarith

theorem eq_zero_of_sum_nonneg_zero (f : α → ℚ) (l : List α) (h0 : ∀ x ∈ l, 0 ≤ f x)
    (hs : (l.map f).sum = 0) : ∀ x ∈ l, f x = 0 := by
  induction l with
  | nil => simp
  | cons a t ih =>
    simp only [List.map_cons, List.sum_cons] at hs
    have ha := h0 a (List.mem_cons_self _ _)
    have hts := sum_map_nonneg f t (fun x hx => h0 x (List.mem_cons_of_mem _ hx))
    intro x hx
    rcases List.mem_cons.mp hx with rfl | hx
    · linarith
    · exact ih (fun y hy => h0 y (List.mem_cons_of_mem _ hy)) (by linarith) x hx

theorem sum_map_filter_split (p : α → Bool) (f : α → ℚ) (l : List α) :
    (l.map f).sum =
      ((l.filter p).map f).sum + ((l.filter (fun x => !(p x))).map f).sum := by
  induction l with
  | nil => simp
  | cons a t ih =>
    simp only [List.map_cons, List.sum_cons, List.filter_cons]
    cases hp : p a <;> simp <;> linarith

theorem sum_filter_le_of_imp (p q : α → Bool) (f : α → ℚ) (l : List α)
    (himp : ∀ x ∈ l, p x = true → q x = true) (h0 : ∀ x ∈ l, 0 ≤ f x) :
    ((l.filter p).map f).sum ≤ ((l.filter q).map f).sum := by
  induction l with
  | nil => simp
  | cons a t ih =>
    have ihs := ih (fun x hx => himp x (List.mem_cons_of_mem _ hx))
      (fun x hx => h0 x (List.mem_cons_of_mem _ hx))
    have ha := h0 a (List.mem_cons_self _ _)
    simp only [List.filter_cons]
    cases hq : q a
    · have hp : p a = false := by
        cases hp : p a
        · rfl
        · rw [himp a (List.mem_cons_self _ _) hp] at hq
          exact absurd hq (by simp)
      simp only [hp]
      exact ihs
    · cases hp : p a <;> simp <;> linarith

theorem sum_fiberwise {κ : Type} [DecidableEq κ] (key : α → κ) (f : α → ℚ) :
    ∀ (ks : List κ) (l : List α), (∀ x ∈ l, key x ∈ ks) → ks.Nodup →
      (ks.map (fun k => ((l.filter (fun x => key x = k)).map f).sum)).sum =
        (l.map f).sum := by
  intro ks
  induction ks with
  | nil =>
    intro l hcov _
    have hl : l = [] := by
      cases l with
      | nil => rfl
      | cons a t => exact absurd (hcov a (List.mem_cons_self _ _)) (List.not_mem_nil _)
    subst hl
    simp
  | cons k ks ih =>
    intro l hcov hnd
    have hnd' := (List.nodup_cons.mp hnd).2
    have hk := (List.nodup_cons.mp hnd).1
    have hsplit := sum_map_filter_split (fun x => key x = k) f l
    have hrest : (ks.map (fun k' =>
        ((l.filter (fun x => key x = k')).map f).sum)).sum =
        (((l.filter (fun x => !(decide (key x = k)))).map f)).sum := by
      have hcov' : ∀ x ∈ l.filter (fun x => !(decide (key x = k))), key x ∈ ks := by
        intro x hx
        have hxl := List.mem_of_mem_filter hx
        have hxk : ¬ key x = k := by
          have := List.of_mem_filter hx
          simpa using this
        rcases List.mem_cons.mp (hcov x hxl) with h | h
        · exact absurd h hxk
        · exact h
      have heach : ∀ k' ∈ ks,
          ((l.filter (fun x => key x = k')).map f).sum =
          (((l.filter (fun x => !(decide (key x = k)))).filter
            (fun x => key x = k')).map f).sum := by
        intro k' hk'
        have hkk : k' ≠ k := fun h => hk (h ▸ hk')
        congr 1
        rw [List.filter_filter]
        congr 1
        apply List.filter_congr
        intro x hx
        by_cases hxk : key x = k'
        · have h2 : ¬ key x = k := fun h => hkk (by rw [← hxk, h])
          simp [hxk, h2, hkk]
        · simp [hxk]
      rw [List.map_congr_left heach]
      exact ih _ hcov' hnd'
    simp only [List.map_cons, List.sum_cons]
    rw [hrest]
    linarith

/-! ### Claims C4 and C5 — weight bounds and group sums -/

/-- The rational value of a merged row's weight when every weight base is
non-negative: `base / group-total`, with the 0/0 case filled to 0. -/
def wq (merged : List MRow) (r : MRow) : ℚ :=
  if ioTotal merged r.k3 = 0 then 0 else r.base / ioTotal merged r.k3

/-- The rational value of one bridge group's summed weight. -/
def cellWq (merged : List MRow) (hasIL hasQL : Bool)
    (k : String × Int × Int × String × Option String × Option String) : ℚ :=
  (((keptRows hasIL hasQL merged).filter
      (fun r => MRow.k6 hasIL hasQL r = k)).map (wq merged)).sum

/-- The three-column group key underlying a bridge group-by key. -/
def proj6 (k : String × Int × Int × String × Option String × Option String) :
    String × Int × String :=
  (k.1, k.2.1, k.2.2.2.1)

theorem k3_of_k6 (hasIL hasQL : Bool) (r : MRow)
    (k : String × Int × Int × String × Option String × Option String)
    (h : MRow.k6 hasIL hasQL r = k) : r.k3 = proj6 k := by
  subst h
  rfl

theorem mem_of_mem_keptRows (hasIL hasQL : Bool) (merged : List MRow) (r : MRow)
    (h : r ∈ keptRows hasIL hasQL merged) : r ∈ merged := by
  unfold keptRows at h
  exact List.mem_of_mem_filter h

theorem ioTotal_nonneg (merged : List MRow) (hb : ∀ x ∈ merged, 0 ≤ x.base)
    (g : String × Int × String) : 0 ≤ ioTotal merged g :=
  sum_map_nonneg _ _ (fun x hx => hb x (List.mem_of_mem_filter hx))

theorem mWeight_eq_fin (merged : List MRow) (hb : ∀ x ∈ merged, 0 ≤ x.base)
    (r : MRow) (hr : r ∈ merged) : mWeight merged r = PVal.fin (wq merged r) := by
  by_cases hT : ioTotal merged r.k3 = 0
  · have hb0 : r.base = 0 := by
      have hrg : r ∈ merged.filter (fun x => x.k3 = r.k3) :=
        List.mem_filter.mpr ⟨hr, by simp⟩
      unfold ioTotal at hT
      exact eq_zero_of_sum_nonneg_zero (fun x => x.base)
        (merged.filter (fun x => x.k3 = r.k3))
        (fun x hx => hb x (List.mem_of_mem_filter hx)) hT r hrg
    simp [mWeight, PVal.div, PVal.fillna0, wq, hT, hb0]
  · simp [mWeight, PVal.div, PVal.fillna0, wq, hT]

/-- One bridge group's weight is the finite rational `cellWq`. -/
theorem cellWeight_eq_fin (merged : List MRow) (hb : ∀ x ∈ merged, 0 ≤ x.base)
    (hasIL hasQL : Bool)
    (k : String × Int × Int × String × Option String × Option String) :
    cellWeight merged hasIL hasQL k = PVal.fin (cellWq merged hasIL hasQL k) := by
  unfold cellWeight cellWq
  rw [List.map_congr_left
    (fun r hr => mWeight_eq_fin merged hb r
      (mem_of_mem_keptRows hasIL hasQL merged r (List.mem_of_mem_filter hr)))]
  exact PVal.psum_map_fin _ _

theorem sum_map_mul_const (f : α → ℚ) (c : ℚ) (l : List α) :
    (l.map (fun x => f x * c)).sum = (l.map f).sum * c := by
  induction l with
  | nil => simp
  | cons a t ih =>
    simp only [List.map_cons, List.sum_cons, ih]
    ring

/-- Bounds on a bridge group's weight value under non-negative bases: the
group-by cell — labels or not — is a subset of the rows of its (area,
year, io_sector) `io_total` group, so its weight sum is a subset-sum of a
family of non-negatives totalling at most 1. -/
theorem cellWq_bounds (merged : List MRow) (hb : ∀ x ∈ merged, 0 ≤ x.base)
    (hasIL hasQL : Bool)
    (k : String × Int × Int × String × Option String × Option String) :
    0 ≤ cellWq merged hasIL hasQL k ∧ cellWq merged hasIL hasQL k ≤ 1 := by
  unfold cellWq
  by_cases hT : ioTotal merged (proj6 k) = 0
  · have hz : ∀ r ∈ (keptRows hasIL hasQL merged).filter
        (fun r => MRow.k6 hasIL hasQL r = k), wq merged r = 0 := by
      intro r hr
      have hk3 := k3_of_k6 hasIL hasQL r k (by simpa using List.of_mem_filter hr)
      unfold wq
      rw [hk3, if_pos hT]
    rw [List.map_congr_left hz]
    simp
  · have hpos : 0 < ioTotal merged (proj6 k) :=
      lt_of_le_of_ne (ioTotal_nonneg merged hb _) (Ne.symm hT)
    have hwq : ∀ r ∈ (keptRows hasIL hasQL merged).filter
        (fun r => MRow.k6 hasIL hasQL r = k),
        wq merged r = r.base * (ioTotal merged (proj6 k))⁻¹ := by
      intro r hr
      have hk3 := k3_of_k6 hasIL hasQL r k (by simpa using List.of_mem_filter hr)
      unfold wq
      rw [hk3, if_neg hT, div_eq_mul_inv]
    rw [List.map_congr_left hwq, sum_map_mul_const]
    have hle : (((keptRows hasIL hasQL merged).filter
        (fun r => MRow.k6 hasIL hasQL r = k)).map (fun r => r.base)).sum ≤
        ioTotal merged (proj6 k) := by
      unfold ioTotal keptRows
      rw [List.filter_filter]
      apply sum_filter_le_of_imp
      · intro x hx hp
        simp only [Bool.and_eq_true, decide_eq_true_eq] at hp
        simpa using k3_of_k6 hasIL hasQL x k hp.1
      · exact hb
    have hge : 0 ≤ (((keptRows hasIL hasQL merged).filter
        (fun r => MRow.k6 hasIL hasQL r = k)).map (fun r => r.base)).sum :=
      sum_map_nonneg _ _ (fun x hx => hb x (mem_of_mem_keptRows hasIL hasQL merged x
        (List.mem_of_mem_filter hx)))
    constructor
    · positivity
    · rw [← div_eq_mul_inv, div_le_one hpos]
      exact hle

theorem merged_base_nonneg (qa : QcewAllTable) (xw : XwTable) (basis : WeightBasis)
    (hb : ∀ a ∈ qa.rows, 0 ≤ (cleanAllRow (decide ("year" ∈ qa.cols)) basis a).base) :
    ∀ x ∈ mergedOf qa xw basis, 0 ≤ x.base := by
  intro x hx
  unfold mergedOf mergeAllXw at hx
  obtain ⟨c, hc, hx2⟩ := List.mem_flatMap.mp hx
  obtain ⟨a, ha, rfl⟩ := List.mem_map.mp (by simpa [cleanedOf] using hc)
  rcases hq : (cleanAllRow (decide ("year" ∈ qa.cols)) basis a).qcew_sector with _ | q
  · rw [hq] at hx2
    exact absurd hx2 (List.not_mem_nil _)
  · rw [hq] at hx2
    obtain ⟨e, he, rfl⟩ := List.mem_map.mp hx2
    exact hb a ha

theorem dedupByFirst_go_subset [DecidableEq κ] (kf : α → κ) (seen : List κ)
    (l : List α) : ∀ x ∈ dedupByFirst.go kf seen l, x ∈ l := by
  induction l generalizing seen with
  | nil => simp [dedupByFirst.go]
  | cons a t ih =>
    intro x hx
    simp only [dedupByFirst.go] at hx
    split at hx
    · exact List.mem_cons_of_mem _ (ih seen x hx)
    · rcases List.mem_cons.mp hx with h | h
      · exact h ▸ List.mem_cons_self _ _
      · exact List.mem_cons_of_mem _ (ih _ x h)

theorem mem_of_mem_dedupByFirst [DecidableEq κ] (kf : α → κ) (l : List α) (x : α)
    (h : x ∈ dedupByFirst kf l) : x ∈ l :=
  dedupByFirst_go_subset kf [] l x h

theorem dedupByFirst.go_eq_self [DecidableEq κ] (kf : α → κ) (l : List α) :
    ∀ seen : List κ, (l.map kf).Nodup → (∀ x ∈ l, ¬ kf x ∈ seen) →
      dedupByFirst.go kf seen l = l := by
  induction l with
  | nil => intro seen _ _; rfl
  | cons a t ih =>
    intro seen hnd hs
    simp only [go]
    rw [if_neg (hs a (List.mem_cons_self _ _))]
    congr 1
    simp only [List.map_cons, List.nodup_cons] at hnd
    refine ih _ hnd.2 ?_
    intro x hx hmem
    rcases List.mem_cons.mp hmem with heq | hmem2
    · refine hnd.1 ?_
      rw [← heq]
      exact List.mem_map_of_mem kf hx
    · exact hs x (List.mem_cons_of_mem _ hx) hmem2

/-- `drop_duplicates` keeps everything when the keys are pairwise
distinct. -/
theorem dedupByFirst_eq_self [DecidableEq κ] (kf : α → κ) (l : List α)
    (h : (l.map kf).Nodup) : dedupByFirst kf l = l :=
  dedupByFirst.go_eq_self kf l [] h (fun _ _ => List.not_mem_nil _)

/-- Claim C4 as amended: the cleaning replaces NaN by 0 but does not clip
negative values; when every row's weight base is non-negative after
cleaning, every weight in the returned bridge is a finite rational in
[0, 1] — whether or not the crosswalk carries label columns. -/
theorem c4_amended (qa : QcewAllTable) (q409 : Qcew409Table) (xw : XwTable)
    (basis : WeightBasis)
    (hb : ∀ a ∈ qa.rows, 0 ≤ (cleanAllRow (decide ("year" ∈ qa.cols)) basis a).base) :
    ∀ b ∈ (build_crosswalk_core qa q409 xw basis).bridge_df,
      ∃ q, b.weight = PVal.fin q ∧ 0 ≤ q ∧ q ≤ 1 := by
  intro b hbmem
  have hb' := merged_base_nonneg qa xw basis hb
  have hcore : (build_crosswalk_core qa q409 xw basis).bridge_df =
      bridgeOf xw.hasIoLabel xw.hasQcewLabel (mergedOf qa xw basis) := rfl
  rw [hcore] at hbmem
  unfold bridgeOf at hbmem
  have hbr := mem_of_mem_dedupByFirst BridgeRow.k4 _ b hbmem
  obtain ⟨k, hk, rfl⟩ := List.mem_map.mp hbr
  have hW : (mkBridgeRow (mergedOf qa xw basis) xw.hasIoLabel xw.hasQcewLabel k).weight =
      PVal.fin (cellWq (mergedOf qa xw basis) xw.hasIoLabel xw.hasQcewLabel k) :=
    cellWeight_eq_fin _ hb' _ _ k
  exact ⟨_, hW, cellWq_bounds _ hb' _ _ k⟩

/-- C4 counterexample input: a negative wage value (sector 541100 has
wage −100, sector 541200 has wage 300, both mapped to "5411"). -/
def exAllC4 : QcewAllTable :=
  { cols := requiredAll ++ ["year"]
    rows := [
      { area_fips := "06073", naics_code := some 541100, tap_estabs_count := some 0,
        tap_wages_est_3 := some (-100), tap_emplvl_est_3 := some 0, year := 2024 },
      { area_fips := "06073", naics_code := some 541200, tap_estabs_count := some 0,
        tap_wages_est_3 := some 300, tap_emplvl_est_3 := some 0, year := 2024 }] }

/-- Claim C4, counterexample: the cleaning keeps the negative wage −100
(`to_numeric(...).fillna(0)` does not clip), and the resulting bridge
weights are −1/2 and 3/2, both outside [0, 1]. -/
theorem c4_counterexample :
    ((cleanedOf exAllC4 .wWages).map (fun c => c.base)) = [-100, 300] ∧
    (build_crosswalk_core exAllC4 ex409C1 exXwC1 .wWages).bridge_df.map
      (fun b => b.weight) = [PVal.fin (-(1/2)), PVal.fin (3/2)] ∧
    ((-(1/2) : ℚ) < 0 ∧ (1 : ℚ) < 3/2) := by
  refine ⟨?_, ?_, by norm_num⟩
  · simp +decide [cleanedOf, cleanAllRow, exAllC4, requiredAll, zfill5]
  · simp +decide [build_crosswalk_core, cleanedOf, mergedOf, cleanXw, cleanAllRow,
      mergeAllXw, bridgeOf, bridgeKeys, cellWeight, mkBridgeRow, keptRows,
      hasNaGroupKey, MRow.k6, BridgeRow.k4, XwTable.hasIoLabel, XwTable.hasQcewLabel,
      dedupFirst, dedupFirst.go, dedupByFirst, dedupByFirst.go, sortByKey, mWeight,
      ioTotal, MRow.k3, MRow.k4, lexK6, encOpt, encStr, zfill5, pyStrip, stripChars,
      trimL, trimR, PVal.div, PVal.fillna0, PVal.psum, PVal.isNan, PVal.add,
      List.insertionSort, List.orderedInsert, exAllC4, exXwC1, requiredAll, requiredXw]
    norm_num [PVal.add]

/-- The first bridge row of the C1 scenario. -/
def c4WitnessRow : BridgeRow :=
  { area_fips := "06073", year := 2024, qcew_sector := 541100, io_sector := "5411",
    io_label := none, qcew_label := none, weight := PVal.fin (1/4) }

/-- Witness for C4 (amended) at the C1 scenario input: the first bridge
row's weight 1/4 lies in [0, 1]. -/
theorem c4_witness :
    ∃ q, c4WitnessRow.weight = PVal.fin q ∧ 0 ≤ q ∧ q ≤ 1 := by
  unfold c4WitnessRow
  refine c4_amended exAllC1 ex409C1 exXwC1 .wWages ?_ _ ?_
  · intro a ha
    simp only [exAllC1, List.mem_cons, List.not_mem_nil, or_false] at ha
    rcases ha with rfl | rfl <;> norm_num [cleanAllRow]
  · rw [c1_core_eval]
    simp

/-- The sum of the weights of one (area_fips, year, io_sector) group of a
bridge table (the quantity the weight-normalization property is about). -/
def groupWeightSum (B : List BridgeRow) (g : String × Int × String) : PVal :=
  PVal.psum ((B.filter (fun b => (b.area_fips, b.year, b.io_sector) = g)).map
    (fun b => b.weight))

theorem bridgeKeys_nodup (hasIL hasQL : Bool) (M : List MRow) :
    (bridgeKeys hasIL hasQL M).Nodup := by
  unfold bridgeKeys sortByKey
  exact (List.perm_insertionSort _ _).nodup_iff.mpr (nodup_dedupFirst _)

theorem mem_bridgeKeys (hasIL hasQL : Bool) (M : List MRow)
    (k : String × Int × Int × String × Option String × Option String) :
    k ∈ bridgeKeys hasIL hasQL M ↔
      k ∈ (keptRows hasIL hasQL M).map (MRow.k6 hasIL hasQL) := by
  unfold bridgeKeys
  rw [mem_sortByKey, mem_dedupFirst]

/-- With both label columns absent no merged row is dropped by the bridge
group-by. -/
theorem keptRows_ff (M : List MRow) : keptRows false false M = M := by
  unfold keptRows hasNaGroupKey
  simp

/-- With both label columns absent the group keys are determined by the
four key columns, so the four-key `drop_duplicates` keeps every bridge
row. -/
theorem bridgeOf_ff (M : List MRow) :
    bridgeOf false false M =
      (bridgeKeys false false M).map (mkBridgeRow M false false) := by
  unfold bridgeOf
  apply dedupByFirst_eq_self
  rw [List.map_map]
  refine List.Nodup.map_on ?_ (bridgeKeys_nodup false false M)
  intro x hx y hy hxy
  obtain ⟨rx, -, hrx⟩ := List.mem_map.mp ((mem_bridgeKeys false false M x).mp hx)
  obtain ⟨ry, -, hry⟩ := List.mem_map.mp ((mem_bridgeKeys false false M y).mp hy)
  subst hrx
  subst hry
  simp only [Function.comp, mkBridgeRow, BridgeRow.k4, MRow.k6, Prod.mk.injEq] at hxy ⊢
  simp_all

/-- The group weight sum over a bridge built without label columns, as a
finite rational: the sum of the group's cell weights. -/
theorem groupWeightSum_bridgeOf (M : List MRow) (hb : ∀ x ∈ M, 0 ≤ x.base)
    (g : String × Int × String) :
    groupWeightSum (bridgeOf false false M) g =
      PVal.fin ((((bridgeKeys false false M).filter (fun k => proj6 k = g)).map
        (cellWq M false false)).sum) := by
  rw [bridgeOf_ff]
  unfold groupWeightSum
  rw [List.filter_map, List.map_map]
  have hpred : ∀ k ∈ bridgeKeys false false M,
      ((fun b => decide ((b.area_fips, b.year, b.io_sector) = g)) ∘
        mkBridgeRow M false false) k = (fun k => decide (proj6 k = g)) k := by
    intro k _
    simp [mkBridgeRow, proj6]
  rw [List.filter_congr hpred]
  have hcw : ∀ k ∈ (bridgeKeys false false M).filter (fun k => proj6 k = g),
      ((fun b => b.weight) ∘ mkBridgeRow M false false) k =
        PVal.fin (cellWq M false false k) := by
    intro k _
    exact cellWeight_eq_fin M hb false false k
  rw [List.map_congr_left hcw]
  exact PVal.psum_map_fin _ _

/-- Claim C5 as amended: when the crosswalk carries no label columns (so
`bridge_cols` is exactly the four key columns, the bridge group-by drops
no rows, and the four-key `drop_duplicates` keeps every bridge row) and
every weight base is non-negative after cleaning, every (area_fips, year,
io_sector) group with positive total weight base has bridge weights
summing to exactly 1 (hence within the 1e-3 tolerance), and every group
with zero total weight base (i.e. every base zero) has weights summing
to 0. -/
theorem c5_amended (qa : QcewAllTable) (q409 : Qcew409Table) (xw : XwTable)
    (basis : WeightBasis)
    (hIL : ¬ "io_label" ∈ xw.cols) (hQL : ¬ "qcew_label" ∈ xw.cols)
    (hb : ∀ a ∈ qa.rows, 0 ≤ (cleanAllRow (decide ("year" ∈ qa.cols)) basis a).base)
    (g : String × Int × String) :
    (0 < ioTotal (mergedOf qa xw basis) g →
      groupWeightSum (build_crosswalk_core qa q409 xw basis).bridge_df g = PVal.fin 1) ∧
    (ioTotal (mergedOf qa xw basis) g = 0 →
      groupWeightSum (build_crosswalk_core qa q409 xw basis).bridge_df g = PVal.fin 0) := by
  have hfIL : XwTable.hasIoLabel xw = false := by
    simp [XwTable.hasIoLabel, hIL]
  have hfQL : XwTable.hasQcewLabel xw = false := by
    simp [XwTable.hasQcewLabel, hQL]
  have hb' := merged_base_nonneg qa xw basis hb
  have hcore : (build_crosswalk_core qa q409 xw basis).bridge_df =
      bridgeOf xw.hasIoLabel xw.hasQcewLabel (mergedOf qa xw basis) := rfl
  rw [hcore, hfIL, hfQL, groupWeightSum_bridgeOf _ hb' g]
  set M := mergedOf qa xw basis with hM
  have hkept : keptRows false false M = M := keptRows_ff M
  constructor
  · intro hpos
    have hcell : ∀ k ∈ (bridgeKeys false false M).filter (fun k => proj6 k = g),
        cellWq M false false k =
          ((M.filter (fun r => MRow.k6 false false r = k)).map (fun r => r.base)).sum *
          (ioTotal M g)⁻¹ := by
      intro k hk
      have hg : proj6 k = g := by simpa using List.of_mem_filter hk
      unfold cellWq
      rw [hkept]
      have hwq : ∀ r ∈ M.filter (fun r => MRow.k6 false false r = k),
          wq M r = r.base * (ioTotal M g)⁻¹ := by
        intro r hr
        have hk3 := k3_of_k6 false false r k (by simpa using List.of_mem_filter hr)
        unfold wq
        rw [hk3, hg, if_neg (by positivity), div_eq_mul_inv]
      rw [List.map_congr_left hwq, sum_map_mul_const]
    rw [List.map_congr_left hcell, sum_map_mul_const]
    have hfib : (((bridgeKeys false false M).filter (fun k => proj6 k = g)).map
        (fun k => ((M.filter (fun r => MRow.k6 false false r = k)).map
          (fun r => r.base)).sum)).sum = ioTotal M g := by
      have heach : ∀ k ∈ (bridgeKeys false false M).filter (fun k => proj6 k = g),
          ((M.filter (fun r => MRow.k6 false false r = k)).map (fun r => r.base)).sum =
          (((M.filter (fun r => r.k3 = g)).filter
            (fun r => MRow.k6 false false r = k)).map (fun r => r.base)).sum := by
        intro k hk
        congr 1
        rw [List.filter_filter]
        congr 1
        apply List.filter_congr
        intro x _
        by_cases hx6 : MRow.k6 false false x = k
        · have hx3 : x.k3 = g := by
            rw [k3_of_k6 false false x k hx6]
            simpa using List.of_mem_filter hk
          simp [hx6, hx3]
        · simp [hx6]
      rw [List.map_congr_left heach]
      have hcov : ∀ x ∈ M.filter (fun r => r.k3 = g), MRow.k6 false false x ∈
          (bridgeKeys false false M).filter (fun k => proj6 k = g) := by
        intro x hx
        refine List.mem_filter.mpr ⟨?_, ?_⟩
        · rw [mem_bridgeKeys, hkept]
          exact List.mem_map_of_mem _ (List.mem_of_mem_filter hx)
        · have hx3 : x.k3 = g := by simpa using List.of_mem_filter hx
          have hp : proj6 (MRow.k6 false false x) = x.k3 := rfl
          simp [hp, hx3]
      have hnd : ((bridgeKeys false false M).filter (fun k => proj6 k = g)).Nodup :=
        (bridgeKeys_nodup false false M).filter _
      have := sum_fiberwise (MRow.k6 false false) (fun r => r.base)
        ((bridgeKeys false false M).filter (fun k => proj6 k = g))
        (M.filter (fun r => r.k3 = g)) hcov hnd
      rw [this]
      rfl
    rw [hfib, mul_inv_cancel₀ (ne_of_gt hpos)]
  · intro hzero
    have hcell : ∀ k ∈ (bridgeKeys false false M).filter (fun k => proj6 k = g),
        cellWq M false false k = 0 := by
      intro k hk
      have hg : proj6 k = g := by simpa using List.of_mem_filter hk
      unfold cellWq
      rw [hkept]
      have hwq : ∀ r ∈ M.filter (fun r => MRow.k6 false false r = k), wq M r = 0 := by
        intro r hr
        have hk3 := k3_of_k6 false false r k (by simpa using List.of_mem_filter hr)
        unfold wq
        rw [hk3, hg, if_pos hzero]
      rw [List.map_congr_left hwq]
      simp
    rw [List.map_congr_left hcell]
    simp

/-- C5 counterexample input (a): a single detailed row, wage 100, sector
541100, year 2024. -/
def exAllC5L : QcewAllTable :=
  { cols := requiredAll ++ ["year"]
    rows := [
      { area_fips := "06073", naics_code := some 541100, tap_estabs_count := some 0,
        tap_wages_est_3 := some 100, tap_emplvl_est_3 := some 0, year := 2024 }] }

/-- C5 counterexample input (a): a crosswalk with an `io_label` column and
two entries for the same (qcew_sector, io_sector) pair differing only in
the label. -/
def exXwC5L : XwTable :=
  { cols := requiredXw ++ ["io_label"]
    rows := [
      { qcew_sector := some 541100, io_sector := some "5411",
        qcew_label := none, io_label := some "A" },
      { qcew_sector := some 541100, io_sector := some "5411",
        qcew_label := none, io_label := some "B" }] }

/-- C5 counterexample input (b): wage +100 for sector 541100 and −100 for
541200, both mapped to "5411", so the group's total weight base is 0 with
nonzero bases. -/
def exAllC5 : QcewAllTable :=
  { cols := requiredAll ++ ["year"]
    rows := [
      { area_fips := "06073", naics_code := some 541100, tap_estabs_count := some 0,
        tap_wages_est_3 := some 100, tap_emplvl_est_3 := some 0, year := 2024 },
      { area_fips := "06073", naics_code := some 541200, tap_estabs_count := some 0,
        tap_wages_est_3 := some (-100), tap_emplvl_est_3 := some 0, year := 2024 }] }

/-- Claim C5, counterexamples.  (a) With an `io_label` column the two
crosswalk entries give the single QCEW row two merged copies (weight 1/2
each, total weight base 200); the labels split them into two bridge
group-by rows and the four-key `drop_duplicates(keep="first")` discards
one, so the weights of the (06073, 2024, "5411") group sum to 1/2 despite
the positive total — not 1 and outside the 1e-3 tolerance.  (b) A group
with zero total weight base but nonzero bases gets weights `inf` and
`-inf` (float division by zero survives `fillna(0)`), and their sum is
`nan`, not 0. -/
theorem c5_counterexample :
    (ioTotal (mergedOf exAllC5L exXwC5L .wWages) ("06073", 2024, "5411") = 200 ∧
     groupWeightSum (build_crosswalk_core exAllC5L ex409C1 exXwC5L .wWages).bridge_df
       ("06073", 2024, "5411") = PVal.fin (1/2) ∧
     ¬ |(1/2 : ℚ) - 1| ≤ 1/1000) ∧
    (ioTotal (mergedOf exAllC5 exXwC1 .wWages) ("06073", 2024, "5411") = 0 ∧
     groupWeightSum (build_crosswalk_core exAllC5 ex409C1 exXwC1 .wWages).bridge_df
       ("06073", 2024, "5411") = PVal.nan ∧
     PVal.nan ≠ PVal.fin 0) := by
  refine ⟨⟨?_, ?_, fun h => by rw [abs_le] at h; linarith [h.1]⟩, ?_, ?_, by simp⟩
  · simp +decide [mergedOf, cleanedOf, cleanXw, cleanAllRow, mergeAllXw, ioTotal,
      MRow.k3, zfill5, pyStrip, stripChars, trimL, trimR, exAllC5L, exXwC5L,
      requiredAll, requiredXw]
    norm_num
  · simp +decide [build_crosswalk_core, cleanedOf, mergedOf, cleanXw, cleanAllRow,
      mergeAllXw, bridgeOf, bridgeKeys, cellWeight, mkBridgeRow, keptRows,
      hasNaGroupKey, MRow.k6, BridgeRow.k4, XwTable.hasIoLabel, XwTable.hasQcewLabel,
      dedupFirst, dedupFirst.go, dedupByFirst, dedupByFirst.go, sortByKey, mWeight,
      ioTotal, MRow.k3, MRow.k4, lexK6, encOpt, encStr, zfill5, pyStrip, stripChars,
      trimL, trimR, PVal.div, PVal.fillna0, PVal.psum, PVal.isNan, PVal.add,
      List.insertionSort, List.orderedInsert, exAllC5L, exXwC5L, requiredAll,
      requiredXw, groupWeightSum]
    norm_num [PVal.add]
  · simp +decide [mergedOf, cleanedOf, cleanXw, cleanAllRow, mergeAllXw, ioTotal,
      MRow.k3, zfill5, pyStrip, stripChars, trimL, trimR, exAllC5, exXwC1, requiredAll,
      requiredXw]
  · simp +decide [build_crosswalk_core, cleanedOf, mergedOf, cleanXw, cleanAllRow,
      mergeAllXw, bridgeOf, bridgeKeys, cellWeight, mkBridgeRow, keptRows,
      hasNaGroupKey, MRow.k6, BridgeRow.k4, XwTable.hasIoLabel, XwTable.hasQcewLabel,
      dedupFirst, dedupFirst.go, dedupByFirst, dedupByFirst.go, sortByKey, mWeight,
      ioTotal, MRow.k3, MRow.k4, lexK6, encOpt, encStr, zfill5, pyStrip, stripChars,
      trimL, trimR, PVal.div, PVal.fillna0, PVal.psum, PVal.isNan, PVal.add,
      List.insertionSort, List.orderedInsert, exAllC5, exXwC1, requiredAll,
      requiredXw, groupWeightSum]

/-- Witness for C5 (amended) at the C1 scenario: the label-free crosswalk
and positive total base 400 give weights summing to exactly 1 in the
(06073, 2024, 5411) group. -/
theorem c5_witness :
    groupWeightSum (build_crosswalk_core exAllC1 ex409C1 exXwC1 .wWages).bridge_df
      ("06073", 2024, "5411") = PVal.fin 1 := by
  refine (c5_amended exAllC1 ex409C1 exXwC1 .wWages ?_ ?_ ?_ ("06073", 2024, "5411")).1 ?_
  · decide
  · decide
  · intro a ha
    simp only [exAllC1, List.mem_cons, List.not_mem_nil, or_false] at ha
    rcases ha with rfl | rfl <;> norm_num [cleanAllRow]
  · simp +decide [mergedOf, cleanedOf, cleanXw, cleanAllRow, mergeAllXw, ioTotal,
      MRow.k3, zfill5, pyStrip, stripChars, trimL, trimR, exAllC1, exXwC1, requiredAll,
      requiredXw]
    norm_num

/-! ### Claim C8 — idempotence of default-mode alignment -/

theorem stripRow_idem (r : ABRow) :
    ((fun r : ABRow => { r with io_sector := pyStrip r.io_sector })
      ((fun r : ABRow => { r with io_sector := pyStrip r.io_sector }) r)) =
      (fun r : ABRow => { r with io_sector := pyStrip r.io_sector }) r := by
  simp [pyStrip_idem]

theorem sortByKey_sorted {κ : Type} [LinearOrder κ] (kf : α → κ) (l : List α) :
    (sortByKey kf l).Sorted (fun x y => kf x ≤ kf y) := by
  unfold sortByKey
  haveI : IsTotal α (fun x y => kf x ≤ kf y) := ⟨fun a b => le_total (kf a) (kf b)⟩
  haveI : IsTrans α (fun x y => kf x ≤ kf y) := ⟨fun a b c h1 h2 => le_trans h1 h2⟩
  exact List.sorted_insertionSort _ l

theorem sortByKey_of_sorted {κ : Type} [LinearOrder κ] (kf : α → κ) (l : List α)
    (h : l.Sorted (fun x y => kf x ≤ kf y)) : sortByKey kf l = l := by
  unfold sortByKey
  exact List.Sorted.insertionSort_eq h

/-- Claim C8: default-mode alignment is idempotent — aligning an
already-aligned table to the same code universe returns it unchanged
(same rows, same order, same values): stripping is idempotent, every
surviving row's code is already in the universe, and a stable sort of a
sorted table is the identity. -/
theorem c8_align_idempotent (t : ATable) (codes : List String) :
    align_io_to_bea_402 (align_io_to_bea_402 t codes false) codes false =
      align_io_to_bea_402 t codes false := by
  unfold align_io_to_bea_402
  simp only [Bool.not_false, if_true]
  have hrows : ∀ (l : List ABRow),
      sortByKey (alignKey t.hasArea t.hasYear codes)
        (((sortByKey (alignKey t.hasArea t.hasYear codes)
            ((l.map (fun r => { r with io_sector := pyStrip r.io_sector })).filter
              (fun r => r.io_sector ∈ codes))).map
          (fun r => { r with io_sector := pyStrip r.io_sector })).filter
            (fun r => r.io_sector ∈ codes)) =
      sortByKey (alignKey t.hasArea t.hasYear codes)
        ((l.map (fun r => { r with io_sector := pyStrip r.io_sector })).filter
          (fun r => r.io_sector ∈ codes)) := by
    intro l
    set K := alignKey t.hasArea t.hasYear codes with hK
    set R := sortByKey K ((l.map (fun r => { r with io_sector := pyStrip r.io_sector })).filter
      (fun r => r.io_sector ∈ codes)) with hR
    have hmem : ∀ r ∈ R, r ∈ (l.map (fun r => { r with io_sector := pyStrip r.io_sector })).filter
        (fun r => r.io_sector ∈ codes) := by
      intro r hr
      rw [hR, mem_sortByKey] at hr
      exact hr
    have hstrip : R.map (fun r => { r with io_sector := pyStrip r.io_sector }) = R := by
      rw [show R.map (fun r => { r with io_sector := pyStrip r.io_sector }) =
          R.map id from ?_, List.map_id]
      apply List.map_congr_left
      intro r hr
      obtain ⟨r0, hr0, rfl⟩ := List.mem_map.mp (List.mem_of_mem_filter (hmem r hr))
      exact stripRow_idem r0
    rw [hstrip]
    have hfilt : R.filter (fun r => r.io_sector ∈ codes) = R := by
      rw [List.filter_eq_self]
      intro r hr
      simpa using List.of_mem_filter (hmem r hr)
    rw [hfilt]
    apply sortByKey_of_sorted
    rw [hR]
    exact sortByKey_sorted K _
  exact congrArg (ATable.mk t.hasArea t.hasYear) (hrows t.rows)
